import Mathlib

/-!
A shallow embedding of the bigsets repository (crates/bigsets), covering:

* `types.rs` — `ActorId`, `Dot`, `VersionVector`, `Operation`, `OpType`,
  including the text encodings (`Display`/`FromStr` for `ActorId`,
  `VersionVector::from_str` / `VersionVector::to_string`);
* `storage/sqlite.rs` — the SQLite tables (`sets`, `elements`, `dots`,
  `version_vector`) modelled as association lists, and the storage
  operations `add_elements`, `remove_elements`, `replicate_add`,
  `replicate_remove`, `get_elements`, `count_elements`, `is_member`,
  `are_members`, each translated statement by statement from the SQL the
  source executes;
* `server.rs` — `CommandResult` and the `Server` operations `sadd`, `srem`,
  `scard`, `smembers`, `sismember`, `smismember`, `apply_remote_operation`.

Rust `u64` counters are modelled as `Nat` (counters are only ever
incremented by one or maxed, never wrapped), byte strings as `List Nat`,
and `HashMap` as an association list with HashMap-equality where the source
compares maps.  Fallible Rust functions returning `rusqlite::Result` are
modelled with `Except DbErr`.
-/

namespace Bigsets

/-- Opaque byte strings (`bytes::Bytes`). -/
abbrev Bytes := List Nat

/-- Database errors (`rusqlite::Error`): only the variants the modelled code
can produce are distinguished. -/
inductive DbErr where
  /-- `rusqlite::Error::InvalidQuery`, used by `Server::apply_remote_operation`
  on a causality gap. -/
  | invalidQuery
  /-- A SQLite constraint violation, e.g. inserting a duplicate
  `(element_id, actor_id)` primary key into `dots`. -/
  | constraintViolation
  /-- Any other storage-layer failure. -/
  | storageFail
deriving DecidableEq, Repr

/-- `ActorId` (types.rs): 4 bytes `[version][node_id_hi][node_id_lo][epoch]`.
Each field is the value of one byte; well-formed actors have every field
`< 256` (`WFActor`). -/
structure ActorId where
  b0 : Nat
  b1 : Nat
  b2 : Nat
  b3 : Nat
deriving DecidableEq, Repr

namespace ActorId

/-- `ActorId::version`. -/
def version (a : ActorId) : Nat := a.b0

/-- `ActorId::node_id`: `(bytes[1] << 8) | bytes[2]`. -/
def node_id (a : ActorId) : Nat := a.b1 * 256 + a.b2

/-- `ActorId::epoch`. -/
def epoch (a : ActorId) : Nat := a.b3

/-- `ActorId::bytes`. -/
def bytes (a : ActorId) : List Nat := [a.b0, a.b1, a.b2, a.b3]

/-- `ActorId::new(node_id: u16, epoch: u8)`: version byte 0, node id split
big-endian.  The `% 2^16` / `% 2^8` reflect the Rust argument types. -/
def new (nodeId epoch : Nat) : ActorId :=
  ⟨0, nodeId % 65536 / 256, nodeId % 256, epoch % 256⟩

/-- `ActorId::new_with_version`. -/
def new_with_version (ver nodeId epoch : Nat) : ActorId :=
  ⟨ver % 256, nodeId % 65536 / 256, nodeId % 256, epoch % 256⟩

/-- `ActorId::from_node_id`. -/
def from_node_id (nodeId : Nat) : ActorId := new nodeId 0

/-- `ActorId::from_bytes`: requires exactly 4 bytes. -/
def from_bytes (l : List Nat) : Except Unit ActorId :=
  match l with
  | [x0, x1, x2, x3] => .ok ⟨x0, x1, x2, x3⟩
  | _ => .error ()

/-- The derived `Ord` on `ActorId` is lexicographic on the 4-byte array. -/
def leb (a b : ActorId) : Bool :=
  if a.b0 ≠ b.b0 then a.b0 < b.b0
  else if a.b1 ≠ b.b1 then a.b1 < b.b1
  else if a.b2 ≠ b.b2 then a.b2 < b.b2
  else a.b3 ≤ b.b3

/-- A well-formed actor has byte-sized fields (`u8` in the source). -/
def WF (a : ActorId) : Prop := a.b0 < 256 ∧ a.b1 < 256 ∧ a.b2 < 256 ∧ a.b3 < 256

instance : DecidablePred WF := fun a => by unfold WF; infer_instance

end ActorId

/-- `Dot` (types.rs): an `(actor, counter)` pair. -/
structure Dot where
  actor_id : ActorId
  counter : Nat
deriving DecidableEq, Repr

/-- `VersionVector` (types.rs): `HashMap<ActorId, u64>` modelled as an
association list.  Lists reachable from the model's operations have
pairwise-distinct keys, mirroring the `HashMap` invariant. -/
structure VersionVector where
  entries : List (ActorId × Nat)
deriving DecidableEq, Repr

namespace VersionVector

/-- The empty version vector (`VersionVector::new`). -/
def new : VersionVector := ⟨[]⟩

/-- `HashMap::get`: the stored counter, if the actor has an entry. -/
def find (vv : VersionVector) (a : ActorId) : Option Nat :=
  (vv.entries.find? (fun p => p.1 = a)).map (·.2)

/-- `VersionVector::get`: `counters.get(&a).copied().unwrap_or(0)`. -/
def get (vv : VersionVector) (a : ActorId) : Nat := (vv.find a).getD 0

/-- `HashMap::insert`-style upsert: replace the entry for `a` in place if
present, otherwise append it. -/
def setEntry (vv : VersionVector) (a : ActorId) (c : Nat) : VersionVector :=
  if (vv.entries.find? (fun p => p.1 = a)).isSome then
    ⟨vv.entries.map (fun p => if p.1 = a then (a, c) else p)⟩
  else
    ⟨vv.entries ++ [(a, c)]⟩

/-- `VersionVector::increment`: `VV[a] ← VV[a] + 1`, returning the new dot. -/
def increment (vv : VersionVector) (a : ActorId) : Dot × VersionVector :=
  let c := vv.get a + 1
  (⟨a, c⟩, vv.setEntry a c)

/-- `VersionVector::update`: `VV[a] ← max(VV[a], c)`. -/
def update (vv : VersionVector) (a : ActorId) (c : Nat) : VersionVector :=
  vv.setEntry a (max (vv.get a) c)

/-- `VersionVector::merge`: pointwise `update` over the other vector. -/
def merge (vv other : VersionVector) : VersionVector :=
  other.entries.foldl (fun acc p => acc.update p.1 p.2) vv

/-- `VersionVector::descends`: `∀ (a, c) ∈ other, VV[a] ≥ c`. -/
def descends (vv other : VersionVector) : Bool :=
  other.entries.all (fun p => p.2 ≤ vv.get p.1)

/-- Rust `HashMap` equality (`==` on `VersionVector`): the same keys mapped
to the same counters on both sides. -/
def mapEq (v w : VersionVector) : Bool :=
  v.entries.all (fun p => w.find p.1 = some p.2) &&
    w.entries.all (fun p => v.find p.1 = some p.2)

/-- The `HashMap` key invariant plus byte-sized actors: what every
`VersionVector` built by the source satisfies. -/
def WF (vv : VersionVector) : Prop :=
  (vv.entries.map (·.1)).Nodup ∧ ∀ p ∈ vv.entries, p.1.WF

instance : DecidablePred WF := fun vv => by unfold WF; infer_instance

end VersionVector

/-! ### Text encodings (types.rs `Display` / `FromStr` / `from_str` / `to_string`)

Rust `String`s are modelled as `List Char`. -/

/-- The decimal digit character for `n < 10`. -/
def digitChar : Nat → Char
  | 0 => '0'
  | 1 => '1'
  | 2 => '2'
  | 3 => '3'
  | 4 => '4'
  | 5 => '5'
  | 6 => '6'
  | 7 => '7'
  | 8 => '8'
  | _ => '9'

/-- Fuelled decimal rendering (the fuel argument only bounds recursion depth
and is immaterial once it exceeds the number of digits). -/
def toDecCore : Nat → Nat → List Char → List Char
  | 0, _, acc => acc
  | fuel + 1, n, acc =>
    if n < 10 then digitChar n :: acc
    else toDecCore fuel (n / 10) (digitChar (n % 10) :: acc)

/-- Decimal rendering of a natural number, as Rust's `{}` formatting of an
unsigned integer produces it (no sign, no leading zeros except for `0`). -/
def toDec (n : Nat) : List Char := toDecCore (n + 1) n []

/-- One step of decimal parsing: accumulate a digit, fail on anything else. -/
def parseDigits (acc : Nat) : List Char → Option Nat
  | [] => some acc
  | c :: cs =>
    if 48 ≤ c.toNat ∧ c.toNat ≤ 57 then parseDigits (acc * 10 + (c.toNat - 48)) cs
    else none

/-- Rust `str::parse::<uN>` restricted to values (the width check is applied
separately where the source parses a bounded type): an optional leading `+`
followed by at least one decimal digit. -/
def parseNat : List Char → Option Nat
  | [] => none
  | c :: cs =>
    if c = '+' then
      match cs with
      | [] => none
      | _ => parseDigits 0 cs
    else if 48 ≤ c.toNat ∧ c.toNat ≤ 57 then parseDigits 0 (c :: cs)
    else none

/-- Rust `str::parse::<u8>`: parse and range-check. -/
def parseU8 (l : List Char) : Option Nat :=
  (parseNat l).bind (fun n => if n < 256 then some n else none)

/-- Rust `str::parse::<u16>`: parse and range-check. -/
def parseU16 (l : List Char) : Option Nat :=
  (parseNat l).bind (fun n => if n < 65536 then some n else none)

/-- Rust `str::split(c)`: split at every occurrence of `c`; the empty string
yields one empty part. -/
def splitChar (c : Char) : List Char → List (List Char)
  | [] => [[]]
  | x :: xs =>
    if x = c then [] :: splitChar c xs
    else
      match splitChar c xs with
      | [] => [[x]]
      | p :: ps => (x :: p) :: ps

/-- `Vec::join(sep)` / `format!`-interpolation glue: interleave a separator. -/
def joinSep (sep : Char) : List (List Char) → List Char
  | [] => []
  | [p] => p
  | p :: ps => p ++ sep :: joinSep sep ps

/-- Rust `str::rsplit_once(c)`: split at the last occurrence of `c`. -/
def rsplitOnce (c : Char) (l : List Char) : Option (List Char × List Char) :=
  match (l.reverse.span (fun x => x ≠ c)) with
  | (_, []) => none
  | (sufRev, _ :: preRev) => some (preRev.reverse, sufRev.reverse)

namespace ActorId

/-- `Display for ActorId`: `v{version}:{node_id}:{epoch}`. -/
def toChars (a : ActorId) : List Char :=
  'v' :: toDec a.version ++ ':' :: toDec a.node_id ++ ':' :: toDec a.epoch

/-- `FromStr for ActorId`: three `:`-separated parts; the first must start
with `v` (`starts_with`) and its tail parse as a `u8` version, then a `u16`
node id and a `u8` epoch. -/
def fromChars (l : List Char) : Option ActorId :=
  match splitChar ':' l with
  | [versionStr, nodeStr, epochStr] =>
    match versionStr with
    | [] => none
    | c :: verDigits =>
      if c = 'v' then
        (parseU8 verDigits).bind fun ver =>
          (parseU16 nodeStr).bind fun nodeId =>
            (parseU8 epochStr).map fun epoch =>
              new_with_version ver nodeId epoch
      else none
  | _ => none

end ActorId

namespace VersionVector

/-- `VersionVector::to_string`: entries sorted by actor byte order, each
rendered `actor:counter`, joined with commas; the empty vector renders as
the empty string. -/
def toChars (vv : VersionVector) : List Char :=
  if vv.entries.isEmpty then []
  else
    joinSep ','
      (((vv.entries.insertionSort (fun p q => p.1.leb q.1)).map
        (fun p => p.1.toChars ++ ':' :: toDec p.2)))

/-- The per-pair step of `VersionVector::from_str`: `rsplit_once(':')`, parse
the actor, parse the counter, insert. -/
def fromCharsStep (acc : List (ActorId × Nat)) (pair : List Char) :
    Option (List (ActorId × Nat)) :=
  (rsplitOnce ':' pair).bind fun p =>
    (ActorId.fromChars p.1).bind fun actor =>
      (parseNat p.2).map fun counter =>
        if (acc.find? (fun q => q.1 = actor)).isSome then
          acc.map (fun q => if q.1 = actor then (actor, counter) else q)
        else acc ++ [(actor, counter)]

/-- `VersionVector::from_str`: the empty string parses to the empty vector;
otherwise every comma-separated pair must parse. -/
def fromChars (l : List Char) : Option VersionVector :=
  if l.isEmpty then some new
  else
    ((splitChar ',' l).foldlM fromCharsStep []).map fun cs => ⟨cs⟩

end VersionVector

/-- `OpType` (types.rs). -/
inductive OpType where
  | add (elements : List Bytes) (dot : Dot) (removed_dots : List Dot)
  | remove (elements : List Bytes) (dot : Dot) (removed_dots : List Dot)
deriving DecidableEq, Repr

/-- The dot of an operation (the `match` in `Server::apply_remote_operation`). -/
def OpType.dot : OpType → Dot
  | .add _ d _ => d
  | .remove _ d _ => d

/-- `Operation` (types.rs): a replication message. -/
structure Operation where
  set_name : String
  op_type : OpType
  context : VersionVector
deriving DecidableEq, Repr

/-- `CommandResult` (server.rs).  The error-message strings keep the
source's wording minus the surrounding quote characters. -/
inductive CommandResult where
  | okRes (vv : Option VersionVector)
  | integer (n : Int)
  | boolArray (bs : List Bool)
  | bytesArray (bs : List Bytes)
  | errorMsg (msg : String)
  | notReady (vv : VersionVector)
deriving DecidableEq, Repr

/-! ### Storage model (storage/sqlite.rs)

The four tables are modelled as lists of rows; SQL `INSERT` appends,
`DELETE` filters, and `INTEGER PRIMARY KEY` auto-assignment is modelled with
fresh-id counters (`nextSetId`, `nextElemId`).  The `version_vector` table
is an `(actor_id, counter)` map with the same upsert-with-`MAX` semantics as
`VersionVector::update`, so it is carried as a `VersionVector`. -/

/-- A row of `sets(id, name)`. -/
structure SetRow where
  id : Nat
  name : String
deriving DecidableEq, Repr

/-- A row of `elements(id, set_id, value)`. -/
structure ElemRow where
  id : Nat
  setId : Nat
  value : Bytes
deriving DecidableEq, Repr

/-- A row of `dots(element_id, actor_id, counter)`. -/
structure DotRow where
  elemId : Nat
  actor_id : ActorId
  counter : Nat
deriving DecidableEq, Repr

/-- The SQLite database state. -/
structure SqliteState where
  sets : List SetRow
  elements : List ElemRow
  dots : List DotRow
  vv : VersionVector
  nextSetId : Nat
  nextElemId : Nat
deriving DecidableEq, Repr

/-- The freshly created database (`create_schema`). -/
def SqliteState.empty : SqliteState := ⟨[], [], [], .new, 0, 0⟩

namespace SqliteStorage

/-- `SELECT id FROM sets WHERE name = ?1` via `query_row` (first row). -/
def findSet (st : SqliteState) (name : String) : Option Nat :=
  (st.sets.find? (fun s => s.name == name)).map (·.id)

/-- `INSERT INTO sets (name) VALUES (?1) ON CONFLICT(name) DO UPDATE SET
name=name RETURNING id`. -/
def upsertSet (st : SqliteState) (name : String) : Nat × SqliteState :=
  match findSet st name with
  | some id => (id, st)
  | none =>
    (st.nextSetId,
      { st with
        sets := st.sets ++ [⟨st.nextSetId, name⟩]
        nextSetId := st.nextSetId + 1 })

/-- `INSERT INTO elements (set_id, value) VALUES (?1, ?2) ON
CONFLICT(set_id, value) DO UPDATE SET value=value RETURNING id`. -/
def upsertElem (st : SqliteState) (sid : Nat) (v : Bytes) : Nat × SqliteState :=
  match (st.elements.find? (fun e => e.setId == sid && e.value == v)).map (·.id) with
  | some id => (id, st)
  | none =>
    (st.nextElemId,
      { st with
        elements := st.elements ++ [⟨st.nextElemId, sid, v⟩]
        nextElemId := st.nextElemId + 1 })

/-- `INSERT INTO version_vector ... ON CONFLICT(actor_id) DO UPDATE SET
counter = MAX(counter, excluded.counter)` — run by every mutating
operation with the acting dot. -/
def updVVTable (st : SqliteState) (dot : Dot) : SqliteState :=
  { st with vv := st.vv.update dot.actor_id dot.counter }

/-- `SqliteStorage::load_vv`: rebuild a `VersionVector` by inserting every
table row into a fresh map. -/
def load_vv (st : SqliteState) : VersionVector :=
  st.vv.entries.foldl (fun acc p => acc.setEntry p.1 p.2) .new

/-- The per-element body of the `add_elements` loop: upsert the element,
delete (returning) every dot on it, insert the acting dot. -/
def addStep (sid : Nat) (dot : Dot) (st : SqliteState) (e : Bytes) :
    List Dot × SqliteState :=
  let p := upsertElem st sid e
  let eid := p.1
  let st1 := p.2
  let displaced :=
    (st1.dots.filter (fun d => d.elemId == eid)).map (fun d => Dot.mk d.actor_id d.counter)
  (displaced,
    { st1 with
      dots := st1.dots.filter (fun d => !(d.elemId == eid)) ++ [⟨eid, dot.actor_id, dot.counter⟩] })

/-- The `for element in elements` loop of `add_elements`. -/
def addLoop (sid : Nat) (dot : Dot) :
    List Bytes → SqliteState → List Dot × SqliteState
  | [], st => ([], st)
  | e :: es, st =>
    let p := addStep sid dot st e
    let q := addLoop sid dot es p.2
    (p.1 ++ q.1, q.2)

/-- `SqliteStorage::add_elements`: one transaction that upserts the set, runs
the add loop over the elements, updates the `version_vector` table with the
acting dot, and returns the displaced dots. -/
def add_elements (st : SqliteState) (set_name : String) (es : List Bytes) (dot : Dot) :
    Except DbErr (List Dot × SqliteState) :=
  if es.isEmpty then .ok ([], st)
  else
    let p := upsertSet st set_name
    let q := addLoop p.1 dot es p.2
    .ok (q.1, updVVTable q.2 dot)

/-- The per-element body of the `remove_elements` loop.  `acc` is the
accumulated `deleted` vector; the source's element-row deletion is guarded
by `!deleted.is_empty()` on that accumulated vector (not the per-element
one), and selects the set id by name again — the sets table is unchanged
inside the loop, so that reselection equals `sid`. -/
def removeStep (sid : Nat) (st : SqliteState) (acc : List Dot) (e : Bytes) :
    List Dot × SqliteState :=
  let ids := (st.elements.filter (fun r => r.setId == sid && r.value == e)).map (·.id)
  let displaced :=
    (st.dots.filter (fun d => ids.contains d.elemId)).map (fun d => Dot.mk d.actor_id d.counter)
  let st1 := { st with dots := st.dots.filter (fun d => !(ids.contains d.elemId)) }
  let acc1 := acc ++ displaced
  if acc1.isEmpty then (acc1, st1)
  else
    (acc1, { st1 with elements := st1.elements.filter (fun r => !(r.setId == sid && r.value == e)) })

/-- The `for element in elements` loop of `remove_elements`. -/
def removeLoop (sid : Nat) :
    List Bytes → SqliteState → List Dot → List Dot × SqliteState
  | [], st, acc => (acc, st)
  | e :: es, st, acc =>
    let p := removeStep sid st acc e
    removeLoop sid es p.2 p.1

/-- `SqliteStorage::remove_elements`: if the set does not exist the call
returns `[]` before the `version_vector` upsert; otherwise it deletes the
dots and element rows of the listed elements and updates the table with the
acting dot. -/
def remove_elements (st : SqliteState) (set_name : String) (es : List Bytes) (dot : Dot) :
    Except DbErr (List Dot × SqliteState) :=
  if es.isEmpty then .ok ([], st)
  else
    match findSet st set_name with
    | none => .ok ([], st)
    | some sid =>
      let q := removeLoop sid es st []
      .ok (q.1, updVVTable q.2 dot)

/-- The per-element body of the `replicate_add` loop: upsert the element,
delete the `removed_dots` scoped to it, then `INSERT` the incoming dot —
a plain insert whose `(element_id, actor_id)` primary key makes it fail if
a dot by the same actor survives on the element. -/
def replicateAddStep (sid : Nat) (removed : List Dot) (dot : Dot) (st : SqliteState)
    (e : Bytes) : Except DbErr SqliteState :=
  let p := upsertElem st sid e
  let eid := p.1
  let st1 := p.2
  let st2 :=
    if removed.isEmpty then st1
    else
      { st1 with
        dots := st1.dots.filter
          (fun d => !(d.elemId == eid && removed.contains (Dot.mk d.actor_id d.counter))) }
  if st2.dots.any (fun d => d.elemId == eid && d.actor_id == dot.actor_id) then
    .error .constraintViolation
  else .ok { st2 with dots := st2.dots ++ [⟨eid, dot.actor_id, dot.counter⟩] }

/-- The `for element in elements` loop of `replicate_add`. -/
def replicateAddLoop (sid : Nat) (removed : List Dot) (dot : Dot) :
    List Bytes → SqliteState → Except DbErr SqliteState
  | [], st => .ok st
  | e :: es, st =>
    match replicateAddStep sid removed dot st e with
    | .error err => .error err
    | .ok st1 => replicateAddLoop sid removed dot es st1

/-- `SqliteStorage::replicate_add`: apply a remote add inside one
transaction; an error aborts the transaction, leaving the caller's state
unchanged. -/
def replicate_add (st : SqliteState) (set_name : String) (es : List Bytes)
    (removed : List Dot) (dot : Dot) : Except DbErr SqliteState :=
  if es.isEmpty then .ok st
  else
    let p := upsertSet st set_name
    match replicateAddLoop p.1 removed dot es p.2 with
    | .error err => .error err
    | .ok st2 => .ok (updVVTable st2 dot)

/-- The per-element body of the `replicate_remove` loop: skip elements not
present; otherwise delete the `removed_dots` scoped to the element and drop
the element row when no dots remain on it. -/
def replicateRemoveStep (sid : Nat) (removed : List Dot) (st : SqliteState)
    (e : Bytes) : SqliteState :=
  match (st.elements.find? (fun r => r.setId == sid && r.value == e)).map (·.id) with
  | none => st
  | some eid =>
    let st1 :=
      if removed.isEmpty then st
      else
        { st with
          dots := st.dots.filter
            (fun d => !(d.elemId == eid && removed.contains (Dot.mk d.actor_id d.counter))) }
    if (st1.dots.filter (fun d => d.elemId == eid)).length == 0 then
      { st1 with elements := st1.elements.filter (fun r => !(r.id == eid)) }
    else st1

/-- The `for element in elements` loop of `replicate_remove`. -/
def replicateRemoveLoop (sid : Nat) (removed : List Dot) :
    List Bytes → SqliteState → SqliteState
  | [], st => st
  | e :: es, st => replicateRemoveLoop sid removed es (replicateRemoveStep sid removed st e)

/-- `SqliteStorage::replicate_remove`: a missing set is a silent no-op
(before the `version_vector` upsert, as in the source's early return). -/
def replicate_remove (st : SqliteState) (set_name : String) (es : List Bytes)
    (removed : List Dot) (dot : Dot) : Except DbErr SqliteState :=
  if es.isEmpty then .ok st
  else
    match findSet st set_name with
    | none => .ok st
    | some sid => .ok (updVVTable (replicateRemoveLoop sid removed es st) dot)

/-- The ids of the sets with the given name (the `JOIN sets s ON s.id =
e.set_id WHERE s.name = ?1` of the read queries; under the schema's
`UNIQUE(name)` there is at most one). -/
def setIdsNamed (st : SqliteState) (name : String) : List Nat :=
  (st.sets.filter (fun s => s.name == name)).map (·.id)

/-- `SqliteStorage::get_elements`: values of the set's element rows,
`ORDER BY e.id`. -/
def get_elements (st : SqliteState) (set_name : String) : List Bytes :=
  (((st.elements.filter (fun e => (setIdsNamed st set_name).contains e.setId)).insertionSort
    (fun a b => a.id ≤ b.id)).map (·.value))

/-- `SqliteStorage::count_elements`: `COUNT(e.id)` over the same join. -/
def count_elements (st : SqliteState) (set_name : String) : Nat :=
  (st.elements.filter (fun e => (setIdsNamed st set_name).contains e.setId)).length

/-- `SqliteStorage::is_member`: `EXISTS` over the same join with the value
constrained. -/
def is_member (st : SqliteState) (set_name : String) (v : Bytes) : Bool :=
  st.elements.any (fun e => (setIdsNamed st set_name).contains e.setId && e.value == v)

/-- `SqliteStorage::are_members`: empty input short-circuits to `[]`;
otherwise one output row per input value in order, `LEFT JOIN`ed against
the elements of the (first) set with the given name — a missing set makes
the scalar subquery `NULL` and every row `0`.  The join matches at most one
element row per value thanks to the `UNIQUE(set_id, value)` index, so each
input contributes exactly one output. -/
def are_members (st : SqliteState) (set_name : String) (es : List Bytes) : List Bool :=
  if es.isEmpty then []
  else
    match st.sets.find? (fun s => s.name == set_name) with
    | none => es.map (fun _ => false)
    | some srow => es.map (fun v => st.elements.any (fun e => e.value == v && e.setId == srow.id))

end SqliteStorage

/-! ### Server model (server.rs)

`Server<S: Storage>` is generic over its storage; the write paths are
modelled generically (`saddG`, `sremG`) and instantiated with the SQLite
model.  `server.rs` names the `Storage`-trait mutation methods; their
SQLite implementations for the remote path are
`SqliteStorage::replicate_add` / `replicate_remove` (the symbols the spec's
§4.3 step 5 and the storage layer provide for remote operations), and for
the local path `SqliteStorage::add_elements` / `remove_elements`.  The
storage-function parameter carries the full trait argument list
`(set_name, elements, dot, removed_dots, vv)`; the SQLite implementation
uses the dot (from which it persists the version-vector row) and ignores
the trailing arguments. -/

/-- The server's owned state: `self_actor_id`, the in-memory `VersionVector`
behind the write lock, and the storage handle. -/
structure ServerState (σ : Type) where
  actor_id : ActorId
  vv : VersionVector
  store : σ
deriving DecidableEq, Repr

/-- A server over the SQLite storage model. -/
abbrev SrvState := ServerState SqliteState

namespace Server

/-- `Server::new`: load the version vector from storage on startup. -/
def new (actor : ActorId) (st : SqliteState) : SrvState :=
  ⟨actor, SqliteStorage.load_vv st, st⟩

/-- `Server::sadd`, generic in the storage-write function exactly as the
source is generic in `S: Storage`.  Steps, in source order: reject empty
`members`; capture `context` (the VV before increment); increment the
in-memory VV; call the storage write, propagating its error with `?` (the
VV increment has already been applied to the in-memory state when that
early return fires); build the replication `Operation` with
`removed_dots: vec![]` (the source's TODO); return the result and the
operation. -/
def saddG {σ : Type}
    (addFn : σ → String → List Bytes → Dot → List Dot → VersionVector → Except DbErr σ)
    (s : ServerState σ) (set_name : String) (members : List Bytes) :
    Except DbErr (CommandResult × Option Operation) × ServerState σ :=
  if members.isEmpty then
    (.ok (.errorMsg "ERR wrong number of arguments for sadd command", none), s)
  else
    let context := s.vv
    let p := s.vv.increment s.actor_id
    let dot := p.1
    let vv1 := p.2
    match addFn s.store set_name members dot [] vv1 with
    | .error e => (.error e, { s with vv := vv1 })
    | .ok st1 =>
      let operation : Operation := ⟨set_name, .add members dot [], context⟩
      (.ok (.okRes (some vv1), some operation), { s with vv := vv1, store := st1 })

/-- `Server::srem`, generic in the storage-write function; same shape as
`saddG` with a `Remove` operation, again with `removed_dots: vec![]`
(the source's TODO — the dots the storage write displaced are discarded). -/
def sremG {σ : Type}
    (removeFn : σ → String → List Bytes → Dot → List Dot → VersionVector → Except DbErr σ)
    (s : ServerState σ) (set_name : String) (members : List Bytes) :
    Except DbErr (CommandResult × Option Operation) × ServerState σ :=
  if members.isEmpty then
    (.ok (.errorMsg "ERR wrong number of arguments for srem command", none), s)
  else
    let context := s.vv
    let p := s.vv.increment s.actor_id
    let dot := p.1
    let vv1 := p.2
    match removeFn s.store set_name members dot [] vv1 with
    | .error e => (.error e, { s with vv := vv1 })
    | .ok st1 =>
      let operation : Operation := ⟨set_name, .remove members dot [], context⟩
      (.ok (.okRes (some vv1), some operation), { s with vv := vv1, store := st1 })

/-- The SQLite instantiation of the local-add storage write. -/
def sqliteAdd : SqliteState → String → List Bytes → Dot → List Dot → VersionVector →
    Except DbErr SqliteState :=
  fun st set es dot _ _ => (SqliteStorage.add_elements st set es dot).map (·.2)

/-- The SQLite instantiation of the local-remove storage write. -/
def sqliteRemove : SqliteState → String → List Bytes → Dot → List Dot → VersionVector →
    Except DbErr SqliteState :=
  fun st set es dot _ _ => (SqliteStorage.remove_elements st set es dot).map (·.2)

/-- `Server::sadd` over SQLite storage. -/
def sadd (s : SrvState) (set_name : String) (members : List Bytes) :
    Except DbErr (CommandResult × Option Operation) × SrvState :=
  saddG sqliteAdd s set_name members

/-- `Server::srem` over SQLite storage. -/
def srem (s : SrvState) (set_name : String) (members : List Bytes) :
    Except DbErr (CommandResult × Option Operation) × SrvState :=
  sremG sqliteRemove s set_name members

/-- `Server::apply_remote_operation`.  Steps, in source order: if the local
VV does not descend the operation's context, return
`Err(rusqlite::Error::InvalidQuery)` (the source's TODO error type) with
nothing mutated; otherwise update the in-memory VV with the operation's dot
and dispatch to the replicate-side storage write, whose error propagates
with `?` after the VV update has been applied. -/
def apply_remote_operation (s : SrvState) (op : Operation) :
    Except DbErr Unit × SrvState :=
  if !(s.vv.descends op.context) then (.error .invalidQuery, s)
  else
    let dot := op.op_type.dot
    let vv1 := s.vv.update dot.actor_id dot.counter
    match op.op_type with
    | .add elements d removed =>
      match SqliteStorage.replicate_add s.store op.set_name elements removed d with
      | .error e => (.error e, { s with vv := vv1 })
      | .ok st1 => (.ok (), { s with vv := vv1, store := st1 })
    | .remove elements d removed =>
      match SqliteStorage.replicate_remove s.store op.set_name elements removed d with
      | .error e => (.error e, { s with vv := vv1 })
      | .ok st1 => (.ok (), { s with vv := vv1, store := st1 })

/-- `Server::scard`: causality check against an optional client VV, then
dispatch to `count_elements`. -/
def scard (s : SrvState) (set_name : String) (client_vv : Option VersionVector) :
    CommandResult :=
  match client_vv with
  | some cv =>
    if !(s.vv.descends cv) then .notReady s.vv
    else .integer (SqliteStorage.count_elements s.store set_name)
  | none => .integer (SqliteStorage.count_elements s.store set_name)

/-- `Server::smembers`. -/
def smembers (s : SrvState) (set_name : String) (client_vv : Option VersionVector) :
    CommandResult :=
  match client_vv with
  | some cv =>
    if !(s.vv.descends cv) then .notReady s.vv
    else .bytesArray (SqliteStorage.get_elements s.store set_name)
  | none => .bytesArray (SqliteStorage.get_elements s.store set_name)

/-- `Server::sismember`. -/
def sismember (s : SrvState) (set_name : String) (m : Bytes)
    (client_vv : Option VersionVector) : CommandResult :=
  match client_vv with
  | some cv =>
    if !(s.vv.descends cv) then .notReady s.vv
    else .integer (if SqliteStorage.is_member s.store set_name m then 1 else 0)
  | none => .integer (if SqliteStorage.is_member s.store set_name m then 1 else 0)

/-- `Server::smismember`: reject an empty member list before the causality
check, then dispatch to `are_members`. -/
def smismember (s : SrvState) (set_name : String) (members : List Bytes)
    (client_vv : Option VersionVector) : CommandResult :=
  if members.isEmpty then
    .errorMsg "ERR wrong number of arguments for smismember command"
  else
    match client_vv with
    | some cv =>
      if !(s.vv.descends cv) then .notReady s.vv
      else .boolArray (SqliteStorage.are_members s.store set_name members)
    | none => .boolArray (SqliteStorage.are_members s.store set_name members)

end Server

/-! ### Concrete replication scenarios

Two fresh replicas, actors `v0:1:0` and `v0:2:0`, and the byte string
`"x"` (`[120]`). -/

/-- The byte string `x`. -/
def xB : Bytes := [120]

/-- Actor `v0:1:0`. -/
def actorA : ActorId := ActorId.new 1 0

/-- Actor `v0:2:0`. -/
def actorB : ActorId := ActorId.new 2 0

/-- A fresh node owned by `actorA` over an empty database. -/
def node1 : SrvState := Server.new actorA SqliteState.empty

/-- A fresh node owned by `actorB` over an empty database. -/
def node2 : SrvState := Server.new actorB SqliteState.empty

/-- The operation `node1.sadd("s", [x])` broadcasts: an `Add` with dot
`(actorA, 1)`, empty `removed_dots`, empty context. -/
def addOpA : Operation := ⟨"s", .add [xB] ⟨actorA, 1⟩ [], .new⟩

/-- The operation `srem("s", [x])` broadcasts from `node2` after it applied
`addOpA`: a `Remove` with dot `(actorB, 1)`, `removed_dots` empty (the
source's TODO), context `{actorA: 1}`. -/
def remOpB : Operation := ⟨"s", .remove [xB] ⟨actorB, 1⟩ [], ⟨[(⟨0, 0, 1, 0⟩, 1)]⟩⟩

/-- An operation causally ahead of a fresh node: dot `(actorA, 2)` with
context `{actorA: 1}`. -/
def gapOp : Operation := ⟨"s", .add [xB] ⟨actorA, 2⟩ [], ⟨[(⟨0, 0, 1, 0⟩, 1)]⟩⟩

/-- Claim C1: convergence fails on the code.  `node1` commits an add of `x`
(via `sadd`), `node2` applies it and then commits a remove of `x` (via
`srem`); `node1` applies the remove.  Every operation committed on either
replica has been applied on the other, and each operation's context was
descended by the applying replica's VV at apply time — yet
`get_elements("s")` is `[x]` on `node1` and `[]` on `node2`, because `srem`
ships `removed_dots: vec![]` (the source's TODO) and `replicate_remove`
therefore deletes no dot at the peer. -/
theorem convergence_fails_across_replicas :
    (Server.sadd node1 "s" [xB]).1 =
      .ok (.okRes (some ⟨[(actorA, 1)]⟩), some addOpA) ∧
    (Server.apply_remote_operation node2 addOpA).1 = .ok () ∧
    node2.vv.descends addOpA.context = true ∧
    (Server.srem (Server.apply_remote_operation node2 addOpA).2 "s" [xB]).1 =
      .ok (.okRes (some ⟨[(actorA, 1), (actorB, 1)]⟩), some remOpB) ∧
    (Server.apply_remote_operation (Server.sadd node1 "s" [xB]).2 remOpB).1 = .ok () ∧
    (Server.sadd node1 "s" [xB]).2.vv.descends remOpB.context = true ∧
    SqliteStorage.get_elements
      (Server.apply_remote_operation (Server.sadd node1 "s" [xB]).2 remOpB).2.store "s" = [xB] ∧
    SqliteStorage.get_elements
      (Server.srem (Server.apply_remote_operation node2 addOpA).2 "s" [xB]).2.store "s" = [] :=
  ⟨rfl, rfl, rfl, rfl, rfl, rfl, rfl, rfl⟩

/-- Claim C2: remote apply is not idempotent on the code.  After `node2`
applies `addOpA` once, its VV descends the context and the dot's counter is
≤ the VV entry for its actor — the claim's duplicate condition — but
`apply_remote_operation` has no freshness check: the second application
re-runs `replicate_add`, whose plain `INSERT` into `dots` hits the
`(element_id, actor_id)` primary key and fails, so the call returns a
constraint error instead of the claim's no-op `Applied=true`. -/
theorem second_apply_of_same_operation_fails :
    (Server.apply_remote_operation node2 addOpA).1 = .ok () ∧
    (Server.apply_remote_operation node2 addOpA).2.vv.descends addOpA.context = true ∧
    addOpA.op_type.dot.counter ≤
      (Server.apply_remote_operation node2 addOpA).2.vv.get addOpA.op_type.dot.actor_id ∧
    (Server.apply_remote_operation (Server.apply_remote_operation node2 addOpA).2 addOpA).1 =
      .error .constraintViolation :=
  ⟨rfl, rfl, by decide, rfl⟩

/-- Claim C3: a no-op `srem` still produces a replication `Operation`.  On a
fresh node the set `"s"` does not exist, so `remove_elements` displaces no
dots — yet `srem` returns `Some(Operation)` (with `removed_dots: vec![]`,
the source's TODO), not the claim's `None`. -/
theorem srem_no_op_still_produces_operation :
    SqliteStorage.remove_elements node1.store "s" [xB] ⟨actorA, 1⟩ =
      .ok ([], node1.store) ∧
    (Server.srem node1 "s" [xB]).1 =
      .ok (.okRes (some ⟨[(actorA, 1)]⟩), some ⟨"s", .remove [xB] ⟨actorA, 1⟩ [], .new⟩) :=
  ⟨rfl, rfl⟩

/-- A storage backend whose write always fails (`Server` is generic over
`S: Storage`, so this is a legitimate instantiation). -/
def failingWrite : Unit → String → List Bytes → Dot → List Dot → VersionVector →
    Except DbErr Unit :=
  fun _ _ _ _ _ _ => .error .storageFail

/-- Claim C4: on a storage-write error the error is surfaced and no
operation is produced, but the in-memory VV is NOT unchanged: `sadd` and
`srem` increment the shared VV before the storage call, and the `?` early
return leaves the increment in place, so after the failed call the VV
carries the minted dot `(actor, 1)` instead of being empty. -/
theorem sadd_storage_error_keeps_vv_increment :
    (Server.saddG failingWrite ⟨actorA, .new, ()⟩ "s" [xB]).1 = .error .storageFail ∧
    (Server.saddG failingWrite ⟨actorA, .new, ()⟩ "s" [xB]).2.vv = ⟨[(actorA, 1)]⟩ ∧
    (Server.sremG failingWrite ⟨actorA, .new, ()⟩ "s" [xB]).1 = .error .storageFail ∧
    (Server.sremG failingWrite ⟨actorA, .new, ()⟩ "s" [xB]).2.vv = ⟨[(actorA, 1)]⟩ ∧
    (⟨[(actorA, 1)]⟩ : VersionVector) ≠ VersionVector.new :=
  ⟨rfl, rfl, rfl, rfl, by decide⟩

/-- Claim C5: on a causality gap `apply_remote_operation` returns
`Err(InvalidQuery)`, not the claim's non-error `Applied=false`: a fresh
node's VV does not descend `gapOp`'s context, and the call returns the
error (its in-src caller `ReplicationServer::handle_connection` buffers
only on `Ok(false)` and logs an `Err` as a storage error).  The VV and
storage are indeed left unchanged. -/
theorem causality_gap_returns_error :
    node2.vv.descends gapOp.context = false ∧
    (Server.apply_remote_operation node2 gapOp).1 = .error .invalidQuery ∧
    (Server.apply_remote_operation node2 gapOp).2 = node2 :=
  ⟨rfl, rfl, rfl⟩

/-- Claim C8 (counterexample): `smismember` with an empty member list and a
client VV the local VV does not descend returns the arity error, not
`NotReady(local_vv)` — the empty-member check runs before the causality
check. -/
theorem smismember_empty_members_beats_causality :
    node2.vv.descends ⟨[(actorA, 1)]⟩ = false ∧
    Server.smismember node2 "s" [] (some ⟨[(actorA, 1)]⟩) =
      .errorMsg "ERR wrong number of arguments for smismember command" ∧
    Server.smismember node2 "s" [] (some ⟨[(actorA, 1)]⟩) ≠ .notReady node2.vv :=
  ⟨rfl, rfl, by decide⟩

/-- Claim C8 (amended): for `scard`, `smembers`, `sismember` and
non-empty-member `smismember`, a supplied client VV the local VV does not
descend yields `NotReady(local_vv)`, and otherwise (no client VV, or a
descended one) the call dispatches to storage and returns the storage
result; `smismember` with an empty member list instead returns the arity
error before any causality check. -/
theorem read_ops_causality_gate (s : SrvState) (set_name : String) (m : Bytes)
    (ms : List Bytes) (cv : VersionVector) :
    (s.vv.descends cv = false →
      Server.scard s set_name (some cv) = .notReady s.vv ∧
      Server.smembers s set_name (some cv) = .notReady s.vv ∧
      Server.sismember s set_name m (some cv) = .notReady s.vv ∧
      (ms ≠ [] → Server.smismember s set_name ms (some cv) = .notReady s.vv)) ∧
    (s.vv.descends cv = true →
      Server.scard s set_name (some cv) =
        .integer (SqliteStorage.count_elements s.store set_name) ∧
      Server.smembers s set_name (some cv) =
        .bytesArray (SqliteStorage.get_elements s.store set_name) ∧
      Server.sismember s set_name m (some cv) =
        .integer (if SqliteStorage.is_member s.store set_name m then 1 else 0) ∧
      (ms ≠ [] → Server.smismember s set_name ms (some cv) =
        .boolArray (SqliteStorage.are_members s.store set_name ms))) ∧
    (Server.scard s set_name none =
        .integer (SqliteStorage.count_elements s.store set_name) ∧
      Server.smembers s set_name none =
        .bytesArray (SqliteStorage.get_elements s.store set_name) ∧
      Server.sismember s set_name m none =
        .integer (if SqliteStorage.is_member s.store set_name m then 1 else 0) ∧
      (ms ≠ [] → Server.smismember s set_name ms none =
        .boolArray (SqliteStorage.are_members s.store set_name ms))) ∧
    (∀ ocv : Option VersionVector,
      Server.smismember s set_name [] ocv =
        .errorMsg "ERR wrong number of arguments for smismember command") := by
  refine ⟨fun hd => ?_, fun hd => ?_, ?_, fun ocv => ?_⟩
  · have hne : ∀ l : List Bytes, l ≠ [] → l.isEmpty = false := by
      intro l hl; cases l with
      | nil => exact absurd rfl hl
      | cons a as => rfl
    refine ⟨?_, ?_, ?_, fun hms => ?_⟩
    · simp [Server.scard, hd]
    · simp [Server.smembers, hd]
    · simp [Server.sismember, hd]
    · simp [Server.smismember, hd, hne ms hms]
  · have hne : ∀ l : List Bytes, l ≠ [] → l.isEmpty = false := by
      intro l hl; cases l with
      | nil => exact absurd rfl hl
      | cons a as => rfl
    refine ⟨?_, ?_, ?_, fun hms => ?_⟩
    · simp [Server.scard, hd]
    · simp [Server.smembers, hd]
    · simp [Server.sismember, hd]
    · simp [Server.smismember, hd, hne ms hms]
  · have hne : ∀ l : List Bytes, l ≠ [] → l.isEmpty = false := by
      intro l hl; cases l with
      | nil => exact absurd rfl hl
      | cons a as => rfl
    refine ⟨?_, ?_, ?_, fun hms => ?_⟩
    · simp [Server.scard]
    · simp [Server.smembers]
    · simp [Server.sismember]
    · simp [Server.smismember, hne ms hms]
  · cases ocv <;> simp [Server.smismember]

/-- Claim C8 (amended, witness): instantiated on a fresh replica with a
stale client VV, the gate returns `NotReady`. -/
theorem read_ops_causality_gate_witness :
    node2.vv.descends ⟨[(actorA, 1)]⟩ = false ∧
    Server.scard node2 "s" (some ⟨[(actorA, 1)]⟩) = .notReady node2.vv :=
  ⟨rfl, ((read_ops_causality_gate node2 "s" xB [xB] ⟨[(actorA, 1)]⟩).1 rfl).1⟩

/-! ### Read-path lemmas -/

/-- Two pointwise-equal predicates give the same `any`. -/
theorem anyCongr {α : Type} (l : List α) (f g : α → Bool)
    (h : ∀ x ∈ l, f x = g x) : l.any f = l.any g := by
  induction l with
  | nil => rfl
  | cons a as ih =>
    simp only [List.any_cons]
    rw [h a (by simp), ih (fun x hx => h x (by simp [hx]))]

/-- When the mapped keys are distinct, the first match found is the only
match. -/
theorem filter_eq_singleton_of_find {α β : Type} [DecidableEq β] (f : α → β) (b : β)
    (l : List α) (hn : (l.map f).Nodup) (r : α)
    (h : l.find? (fun x => f x == b) = some r) :
    l.filter (fun x => f x == b) = [r] := by
  induction l with
  | nil => simp at h
  | cons a as ih =>
    by_cases ha : f a = b
    · have hfind : (a :: as).find? (fun x => f x == b) = some a := by
        simp [List.find?_cons, ha]
      rw [hfind] at h
      obtain rfl : a = r := by injection h
      have hnone : ∀ x ∈ as, ¬ (f x == b) = true := by
        intro x hx hcontra
        have : f x = b := by simpa using hcontra
        have : f a ∈ as.map f := by
          rw [ha, ← this]; exact List.mem_map_of_mem f hx
        exact (List.nodup_cons.mp hn).1 this
      have : as.filter (fun x => f x == b) = [] := List.filter_eq_nil_iff.mpr hnone
      simp [List.filter_cons, ha, this]
    · have hfind : (a :: as).find? (fun x => f x == b) = as.find? (fun x => f x == b) := by
        simp [List.find?_cons, ha]
      rw [hfind] at h
      have := ih (List.nodup_cons.mp hn).2 h
      simp [List.filter_cons, ha, this]

/-- With distinct set names, the ids named `S` are exactly the one found
set's id (`findSet`), or nothing. -/
theorem setIdsNamed_eq (st : SqliteState) (S : String)
    (hnames : (st.sets.map (·.name)).Nodup) :
    SqliteStorage.setIdsNamed st S =
      (match st.sets.find? (fun s => s.name == S) with
       | none => []
       | some r => [r.id]) := by
  unfold SqliteStorage.setIdsNamed
  cases hfind : st.sets.find? (fun s => s.name == S) with
  | none =>
    have : st.sets.filter (fun s => s.name == S) = [] := by
      apply List.filter_eq_nil_iff.mpr
      intro x hx
      exact List.find?_eq_none.mp hfind x hx
    simp [this]
  | some r =>
    have := filter_eq_singleton_of_find (·.name) S st.sets hnames r hfind
    simp [this]

/-- Membership in `get_elements` unfolded: some element row of a set named
`S` carries the value. -/
theorem mem_get_elements_iff (st : SqliteState) (S : String) (v : Bytes) :
    v ∈ SqliteStorage.get_elements st S ↔
      ∃ e ∈ st.elements,
        (SqliteStorage.setIdsNamed st S).contains e.setId = true ∧ e.value = v := by
  unfold SqliteStorage.get_elements
  rw [List.mem_map]
  constructor
  · rintro ⟨e, he, rfl⟩
    have := (List.Perm.mem_iff (List.perm_insertionSort _ _)).mp he
    rw [List.mem_filter] at this
    exact ⟨e, this.1, this.2, rfl⟩
  · rintro ⟨e, he, hc, rfl⟩
    refine ⟨e, ?_, rfl⟩
    apply (List.Perm.mem_iff (List.perm_insertionSort _ _)).mpr
    exact List.mem_filter.mpr ⟨he, hc⟩

/-- `is_member` decides membership in `get_elements`. -/
theorem is_member_iff_mem_get_elements (st : SqliteState) (S : String) (v : Bytes) :
    SqliteStorage.is_member st S v = true ↔ v ∈ SqliteStorage.get_elements st S := by
  unfold SqliteStorage.is_member
  rw [List.any_eq_true, mem_get_elements_iff]
  constructor
  · rintro ⟨e, he, hp⟩
    rw [Bool.and_eq_true, beq_iff_eq] at hp
    exact ⟨e, he, hp.1, hp.2⟩
  · rintro ⟨e, he, hc, hv⟩
    exact ⟨e, he, by rw [Bool.and_eq_true, beq_iff_eq]; exact ⟨hc, hv⟩⟩

/-- Claim C10: `are_members` returns one boolean per input value in order —
it equals the input list mapped through `is_member`, so its length is the
input's length, it is `[]` on an empty input, it is all-`false` when no set
with the name exists, and its `i`-th entry is `true` exactly when the
`i`-th input value is an element of the named set (a member of
`get_elements`). -/
theorem are_members_pointwise (st : SqliteState) (S : String) (es : List Bytes)
    (hnames : (st.sets.map (·.name)).Nodup) :
    SqliteStorage.are_members st S es =
      es.map (fun v => SqliteStorage.is_member st S v) ∧
    (SqliteStorage.are_members st S es).length = es.length ∧
    (es = [] → SqliteStorage.are_members st S es = []) ∧
    (SqliteStorage.findSet st S = none →
      SqliteStorage.are_members st S es = es.map (fun _ => false)) ∧
    (∀ i (h1 : i < (SqliteStorage.are_members st S es).length) (h2 : i < es.length),
      (SqliteStorage.are_members st S es).get ⟨i, h1⟩ = true ↔
        es.get ⟨i, h2⟩ ∈ SqliteStorage.get_elements st S) := by
  have hmain : SqliteStorage.are_members st S es =
      es.map (fun v => SqliteStorage.is_member st S v) := by
    unfold SqliteStorage.are_members SqliteStorage.is_member
    cases hes : es.isEmpty with
    | true =>
      have : es = [] := by cases es with
        | nil => rfl
        | cons a as => simp at hes
      simp [this]
    | false =>
      rw [setIdsNamed_eq st S hnames]
      cases hfind : st.sets.find? (fun s => s.name == S) with
      | none =>
        simp only [hes]
        apply List.map_congr_left
        intro v _
        rw [Bool.eq_iff_iff]
        simp
      | some r =>
        simp only [hes]
        apply List.map_congr_left
        intro v _
        exact (anyCongr st.elements _ _ (fun e _ => by
          simp only [List.contains_cons, List.contains_nil, Bool.or_false]
          rw [Bool.and_comm])).symm
  refine ⟨hmain, by rw [hmain, List.length_map], fun he => by simp [he, SqliteStorage.are_members], fun hnone => ?_, ?_⟩
  · rw [hmain]
    apply List.map_congr_left
    intro v _
    unfold SqliteStorage.is_member
    rw [setIdsNamed_eq st S hnames]
    unfold SqliteStorage.findSet at hnone
    cases hfind : st.sets.find? (fun s => s.name == S) with
    | none => simp
    | some r => rw [hfind] at hnone; simp at hnone
  · intro i h1 h2
    rw [← is_member_iff_mem_get_elements]
    have : (SqliteStorage.are_members st S es).get ⟨i, h1⟩ =
        SqliteStorage.is_member st S (es.get ⟨i, h2⟩) := by
      have := List.get_of_eq hmain ⟨i, h1⟩
      rw [this, List.get_map]
    rw [this]

/-- Claim C10 (witness): on the store produced by one `sadd` of `x`,
`are_members` over `[x, y]` is the pointwise `is_member` map. -/
theorem are_members_pointwise_witness :
    (((Server.sadd node1 "s" [xB]).2.store.sets.map (·.name)).Nodup) ∧
    SqliteStorage.are_members (Server.sadd node1 "s" [xB]).2.store "s" [xB, [121]] =
      [xB, [121]].map
        (fun v => SqliteStorage.is_member (Server.sadd node1 "s" [xB]).2.store "s" v) :=
  ⟨by decide, (are_members_pointwise (Server.sadd node1 "s" [xB]).2.store "s" [xB, [121]]
    (by decide)).1⟩

/-! ### Local add-then-remove (claim C7) -/

/-- `upsertSet` leaves the other tables alone, makes `findSet` succeed with
the returned id, and keeps set names distinct. -/
theorem upsertSet_spec (st : SqliteState) (S : String) :
    SqliteStorage.findSet (SqliteStorage.upsertSet st S).2 S =
      some (SqliteStorage.upsertSet st S).1 ∧
    (SqliteStorage.upsertSet st S).2.elements = st.elements ∧
    (SqliteStorage.upsertSet st S).2.dots = st.dots ∧
    ((st.sets.map (·.name)).Nodup →
      ((SqliteStorage.upsertSet st S).2.sets.map (·.name)).Nodup) := by
  unfold SqliteStorage.upsertSet
  cases hfind : SqliteStorage.findSet st S with
  | some id => exact ⟨hfind, rfl, rfl, fun h => h⟩
  | none =>
    refine ⟨?_, rfl, rfl, fun h => ?_⟩
    · unfold SqliteStorage.findSet at hfind ⊢
      simp only
      cases hf : st.sets.find? (fun s => s.name == S) with
      | some r => rw [hf] at hfind; simp at hfind
      | none =>
        rw [List.find?_append, hf]
        simp [List.find?_cons]
    · unfold SqliteStorage.findSet at hfind
      have hnone : st.sets.find? (fun s => s.name == S) = none := by
        cases hf : st.sets.find? (fun s => s.name == S) with
        | none => rfl
        | some r => rw [hf] at hfind; simp at hfind
      have hSnotin : S ∉ st.sets.map (·.name) := by
        intro hmem
        obtain ⟨r, hr, hrS⟩ := List.mem_map.mp hmem
        have := List.find?_eq_none.mp hnone r hr
        simp [hrS] at this
      simp only [List.map_append, List.map_cons, List.map_nil]
      exact List.nodup_append.mpr ⟨h, List.nodup_singleton S,
        by simpa [List.disjoint_singleton] using hSnotin⟩

/-- `upsertElem` leaves sets, dots and the VV table alone, keeps every old
element row, and guarantees a row carrying the returned id with the given
set id and value. -/
theorem upsertElem_spec (st : SqliteState) (sid : Nat) (v : Bytes) :
    (SqliteStorage.upsertElem st sid v).2.sets = st.sets ∧
    (SqliteStorage.upsertElem st sid v).2.dots = st.dots ∧
    (∃ r ∈ (SqliteStorage.upsertElem st sid v).2.elements,
      r.id = (SqliteStorage.upsertElem st sid v).1 ∧ r.setId = sid ∧ r.value = v) := by
  unfold SqliteStorage.upsertElem
  cases hfind : (st.elements.find? (fun e => e.setId == sid && e.value == v)).map (·.id) with
  | some id =>
    refine ⟨rfl, rfl, ?_⟩
    obtain ⟨r, hr, hrid⟩ : ∃ r, st.elements.find? (fun e => e.setId == sid && e.value == v) =
        some r ∧ r.id = id := by
      cases hf : st.elements.find? (fun e => e.setId == sid && e.value == v) with
      | none => rw [hf] at hfind; simp at hfind
      | some r => rw [hf] at hfind; exact ⟨r, rfl, by simpa using hfind⟩
    have hmem := List.mem_of_find?_eq_some hr
    have hprop := List.find?_some hr
    rw [Bool.and_eq_true, beq_iff_eq, beq_iff_eq] at hprop
    exact ⟨r, hmem, hrid, hprop.1, hprop.2⟩
  | none =>
    exact ⟨rfl, rfl, ⟨⟨st.nextElemId, sid, v⟩, by simp, rfl, rfl, rfl⟩⟩

/-- When the remove step displaces at least one dot, the accumulated
`deleted` check passes and every element row of the set valued `e` is
deleted; the sets table is untouched either way. -/
theorem removeStep_spec (sid : Nat) (st : SqliteState) (acc : List Dot) (e : Bytes)
    (h : st.dots.filter (fun d =>
      ((st.elements.filter (fun r => r.setId == sid && r.value == e)).map (·.id)).contains
        d.elemId) ≠ []) :
    (SqliteStorage.removeStep sid st acc e).2.elements =
      st.elements.filter (fun r => !(r.setId == sid && r.value == e)) ∧
    (SqliteStorage.removeStep sid st acc e).2.sets = st.sets := by
  unfold SqliteStorage.removeStep
  simp only
  rw [if_neg ?hc]
  case hc =>
    intro hEmpty
    rw [List.isEmpty_eq_true, List.append_eq_nil, List.map_eq_nil_iff] at hEmpty
    exact h hEmpty.2
  exact ⟨rfl, rfl⟩

/-- Claim C7: adding `x` with `add_elements` and then removing it with
`remove_elements` on the same node leaves `x` out of `get_elements`, for
every prior state whose set names are distinct (the `sets.name UNIQUE`
schema constraint), every set name and every pair of dots. -/
theorem add_then_remove_not_member (st : SqliteState) (S : String) (x : Bytes)
    (d1 d2 : Dot) (hnames : (st.sets.map (·.name)).Nodup)
    (ds1 ds2 : List Dot) (st1 st2 : SqliteState)
    (h1 : SqliteStorage.add_elements st S [x] d1 = .ok (ds1, st1))
    (h2 : SqliteStorage.remove_elements st1 S [x] d2 = .ok (ds2, st2)) :
    x ∉ SqliteStorage.get_elements st2 S := by
  obtain ⟨hfindA, helemsA, hdotsA, hnamesA⟩ := upsertSet_spec st S
  obtain ⟨hsetsB, hdotsB, rB, hrBmem, hrBid, hrBsid, hrBval⟩ :=
    upsertElem_spec (SqliteStorage.upsertSet st S).2 (SqliteStorage.upsertSet st S).1 x
  -- Unpack the add: st1 is the post-add state.
  unfold SqliteStorage.add_elements at h1
  simp only [List.isEmpty_cons, if_neg Bool.false_ne_true, Except.ok.injEq,
    Prod.mk.injEq] at h1
  obtain ⟨-, hst1⟩ := h1
  have hst1sets : st1.sets =
      (SqliteStorage.upsertElem (SqliteStorage.upsertSet st S).2
        (SqliteStorage.upsertSet st S).1 x).2.sets := by
    rw [← hst1]; rfl
  have hst1elems : st1.elements =
      (SqliteStorage.upsertElem (SqliteStorage.upsertSet st S).2
        (SqliteStorage.upsertSet st S).1 x).2.elements := by
    rw [← hst1]; rfl
  have hst1dots : st1.dots =
      (SqliteStorage.upsertElem (SqliteStorage.upsertSet st S).2
          (SqliteStorage.upsertSet st S).1 x).2.dots.filter
        (fun d => !(d.elemId ==
          (SqliteStorage.upsertElem (SqliteStorage.upsertSet st S).2
            (SqliteStorage.upsertSet st S).1 x).1)) ++
      [⟨(SqliteStorage.upsertElem (SqliteStorage.upsertSet st S).2
          (SqliteStorage.upsertSet st S).1 x).1, d1.actor_id, d1.counter⟩] := by
    rw [← hst1]; rfl
  -- Unpack the remove: the set is found (it was upserted by the add).
  have hfind1 : SqliteStorage.findSet st1 S = some (SqliteStorage.upsertSet st S).1 := by
    unfold SqliteStorage.findSet at hfindA ⊢
    rw [hst1sets, hsetsB]; exact hfindA
  unfold SqliteStorage.remove_elements at h2
  rw [hfind1] at h2
  simp only [List.isEmpty_cons, if_neg Bool.false_ne_true, Except.ok.injEq,
    Prod.mk.injEq] at h2
  obtain ⟨-, hst2⟩ := h2
  -- The add's element row matches the remove's filter, and the add's fresh
  -- dot sits on it, so the displaced-dot list is non-empty.
  have hrB1 : rB ∈ st1.elements := by rw [hst1elems]; exact hrBmem
  have heid_in_ids :
      (SqliteStorage.upsertElem (SqliteStorage.upsertSet st S).2
        (SqliteStorage.upsertSet st S).1 x).1 ∈
      (st1.elements.filter
        (fun r => r.setId == (SqliteStorage.upsertSet st S).1 && r.value == x)).map (·.id) := by
    refine List.mem_map.mpr ⟨rB, List.mem_filter.mpr ⟨hrB1, ?_⟩, hrBid⟩
    rw [Bool.and_eq_true, beq_iff_eq, beq_iff_eq]
    exact ⟨hrBsid, hrBval⟩
  have hnewdot_in : (⟨(SqliteStorage.upsertElem (SqliteStorage.upsertSet st S).2
      (SqliteStorage.upsertSet st S).1 x).1, d1.actor_id, d1.counter⟩ : DotRow) ∈
      st1.dots := by
    rw [hst1dots]; simp
  have hdisplaced_ne :
      st1.dots.filter (fun d =>
        ((st1.elements.filter
          (fun r => r.setId == (SqliteStorage.upsertSet st S).1 && r.value == x)).map
            (·.id)).contains d.elemId) ≠ [] := by
    intro hnil
    have hmemf : (⟨(SqliteStorage.upsertElem (SqliteStorage.upsertSet st S).2
        (SqliteStorage.upsertSet st S).1 x).1, d1.actor_id, d1.counter⟩ : DotRow) ∈
        st1.dots.filter (fun d =>
          ((st1.elements.filter
            (fun r => r.setId == (SqliteStorage.upsertSet st S).1 && r.value == x)).map
              (·.id)).contains d.elemId) := by
      refine List.mem_filter.mpr ⟨hnewdot_in, List.elem_iff.mpr heid_in_ids⟩
    rw [hnil] at hmemf
    exact List.not_mem_nil _ hmemf
  obtain ⟨hrsElems, hrsSets⟩ :=
    removeStep_spec (SqliteStorage.upsertSet st S).1 st1 [] x hdisplaced_ne
  have hst2elems : st2.elements =
      st1.elements.filter
        (fun r => !(r.setId == (SqliteStorage.upsertSet st S).1 && r.value == x)) := by
    rw [← hst2]
    show (SqliteStorage.removeStep (SqliteStorage.upsertSet st S).1 st1 [] x).2.elements = _
    exact hrsElems
  have hst2sets : st2.sets = st1.sets := by
    rw [← hst2]
    show (SqliteStorage.removeStep (SqliteStorage.upsertSet st S).1 st1 [] x).2.sets = _
    exact hrsSets
  -- Membership of x after the remove contradicts the element filter.
  intro hmem
  obtain ⟨e, hemem, hcontains, heval⟩ := (mem_get_elements_iff st2 S x).mp hmem
  have hsetIds : SqliteStorage.setIdsNamed st2 S = [(SqliteStorage.upsertSet st S).1] := by
    have hnames2 : (st2.sets.map (·.name)).Nodup := by
      rw [hst2sets, hst1sets, hsetsB]; exact hnamesA hnames
    rw [setIdsNamed_eq st2 S hnames2]
    unfold SqliteStorage.findSet at hfind1
    have hsame : st2.sets.find? (fun s => s.name == S) =
        st1.sets.find? (fun s => s.name == S) := by rw [hst2sets]
    rw [hsame]
    cases hf : st1.sets.find? (fun s => s.name == S) with
    | none => rw [hf] at hfind1; simp at hfind1
    | some r =>
      rw [hf] at hfind1
      simp only [Option.map_some'] at hfind1
      have : r.id = (SqliteStorage.upsertSet st S).1 := by injection hfind1
      simp [this]
  have hesid : e.setId = (SqliteStorage.upsertSet st S).1 := by
    rw [hsetIds] at hcontains
    simpa using hcontains
  have hin := List.mem_filter.mp (hst2elems ▸ hemem)
  rw [Bool.not_eq_eq_eq_not, Bool.not_true, Bool.and_eq_false_iff] at hin
  rcases hin.2 with hbad | hbad
  · rw [beq_eq_false_iff_ne] at hbad; exact hbad hesid
  · rw [beq_eq_false_iff_ne] at hbad; exact hbad heval

/-- Claim C7 (witness): on the empty database, add `x` with dot
`(actorA, 1)` then remove it with dot `(actorA, 2)`; `x` is absent from the
resulting state. -/
theorem add_then_remove_not_member_witness :
    xB ∉ SqliteStorage.get_elements
      ⟨[⟨0, "s"⟩], [], [], ⟨[(actorA, 2)]⟩, 1, 1⟩ "s" :=
  add_then_remove_not_member SqliteState.empty "s" xB ⟨actorA, 1⟩ ⟨actorA, 2⟩
    (by decide) [] [⟨actorA, 1⟩]
    ⟨[⟨0, "s"⟩], [⟨0, 0, xB⟩], [⟨0, actorA, 1⟩], ⟨[(actorA, 1)]⟩, 1, 1⟩
    ⟨[⟨0, "s"⟩], [], [], ⟨[(actorA, 2)]⟩, 1, 1⟩ rfl rfl

/-! ### Invariant preservation (claim C6) -/

/-- Invariant I1: every dot row's counter is bounded by the
`version_vector` entry of its actor. -/
def I1 (st : SqliteState) : Prop :=
  ∀ d ∈ st.dots, d.counter ≤ st.vv.get d.actor_id

/-- Invariant I2: every element row is referenced by at least one dot row. -/
def I2 (st : SqliteState) : Prop :=
  ∀ e ∈ st.elements, ∃ d ∈ st.dots, d.elemId = e.id

/-- Invariant I3: no two dot rows share `(element_id, actor_id)` (the
table's primary key). -/
def I3 (st : SqliteState) : Prop :=
  (st.dots.map (fun d => (d.elemId, d.actor_id))).Nodup

/-- The `elements.id INTEGER PRIMARY KEY` schema constraint: distinct ids,
all below the next fresh id. -/
def ElemIdsOk (st : SqliteState) : Prop :=
  (st.elements.map (·.id)).Nodup ∧ ∀ e ∈ st.elements, e.id < st.nextElemId

instance : DecidablePred I1 := fun st => by unfold I1; infer_instance

instance : DecidablePred I2 := fun st => by unfold I2; infer_instance

instance : DecidablePred I3 := fun st => by unfold I3; infer_instance

instance : DecidablePred ElemIdsOk := fun st => by unfold ElemIdsOk; infer_instance

/-- Replacing the entry for `a` makes the first `a`-match the replacement,
whenever an `a`-entry exists. -/
theorem find?_replace_self (a : ActorId) (c : Nat) :
    ∀ l : List (ActorId × Nat), (l.find? (fun p => p.1 = a)).isSome = true →
      (l.map (fun p => if p.1 = a then (a, c) else p)).find? (fun p => p.1 = a) =
        some (a, c)
  | [], h => by simp at h
  | p :: l, h => by
    by_cases hp : p.1 = a
    · simp [hp]
    · rw [List.find?_cons_of_neg _ (by simpa using hp)] at h
      simp only [List.map_cons, if_neg hp]
      rw [List.find?_cons_of_neg _ (by simpa using hp)]
      exact find?_replace_self a c l h

/-- Replacing the entry for `a` leaves lookups of other keys unchanged. -/
theorem find?_replace_other (a : ActorId) (c : Nat) (b : ActorId) (h : b ≠ a) :
    ∀ l : List (ActorId × Nat),
      (l.map (fun p => if p.1 = a then (a, c) else p)).find? (fun p => p.1 = b) =
        l.find? (fun p => p.1 = b)
  | [] => rfl
  | p :: l => by
    by_cases hp : p.1 = a
    · have hpb : ¬ p.1 = b := by rw [hp]; exact fun hc => h hc.symm
      simp only [List.map_cons, if_pos hp]
      rw [List.find?_cons_of_neg _ (by simpa using fun hc : a = b => h hc.symm),
        List.find?_cons_of_neg _ (by simpa using hpb)]
      exact find?_replace_other a c b h l
    · simp only [List.map_cons, if_neg hp]
      by_cases hpb : p.1 = b
      · rw [List.find?_cons_of_pos _ (by simpa using hpb),
          List.find?_cons_of_pos _ (by simpa using hpb)]
      · rw [List.find?_cons_of_neg _ (by simpa using hpb),
          List.find?_cons_of_neg _ (by simpa using hpb)]
        exact find?_replace_other a c b h l

/-- Inserting an entry makes `find` return it. -/
theorem VersionVector.find_setEntry_self (vv : VersionVector) (a : ActorId) (c : Nat) :
    (vv.setEntry a c).find a = some c := by
  unfold VersionVector.setEntry VersionVector.find
  by_cases h : (vv.entries.find? (fun p => p.1 = a)).isSome
  · rw [if_pos h]
    simp only
    rw [find?_replace_self a c vv.entries h]
    rfl
  · rw [if_neg h]
    simp only
    rw [List.find?_append]
    have hnone : vv.entries.find? (fun p => p.1 = a) = none :=
      Option.not_isSome_iff_eq_none.mp h
    simp [hnone]

/-- Inserting an entry does not disturb other keys. -/
theorem VersionVector.find_setEntry_other (vv : VersionVector) (a : ActorId) (c : Nat)
    (b : ActorId) (h : b ≠ a) : (vv.setEntry a c).find b = vv.find b := by
  unfold VersionVector.setEntry VersionVector.find
  by_cases hs : (vv.entries.find? (fun p => p.1 = a)).isSome
  · rw [if_pos hs]
    simp only
    rw [find?_replace_other a c b h vv.entries]
  · rw [if_neg hs]
    simp only
    rw [List.find?_append]
    cases hf : vv.entries.find? (fun p => p.1 = b) with
    | some q => rfl
    | none =>
      have hsingle : ([(a, c)] : List (ActorId × Nat)).find? (fun p => p.1 = b) = none := by
        rw [List.find?_cons_of_neg _ (by simpa using fun hc : a = b => h hc.symm)]
        rfl
      rw [hsingle]
      rfl

/-- `update` raises the touched entry to at least `c`. -/
theorem VersionVector.le_get_update_self (vv : VersionVector) (a : ActorId) (c : Nat) :
    c ≤ (vv.update a c).get a := by
  unfold VersionVector.update VersionVector.get
  rw [VersionVector.find_setEntry_self]
  simp [Nat.le_max_right]

/-- `update` never lowers any entry. -/
theorem VersionVector.get_le_update (vv : VersionVector) (a : ActorId) (c : Nat)
    (b : ActorId) : vv.get b ≤ (vv.update a c).get b := by
  unfold VersionVector.update
  by_cases hb : b = a
  · subst hb
    show vv.get b ≤ VersionVector.get _ b
    unfold VersionVector.get
    rw [VersionVector.find_setEntry_self]
    simp [Nat.le_max_left]
  · show vv.get b ≤ VersionVector.get _ b
    unfold VersionVector.get
    rw [VersionVector.find_setEntry_other _ _ _ _ hb]

/-- Distinct mapped keys identify list members. -/
theorem eq_of_mem_of_nodup_map {α β : Type} (f : α → β) (l : List α)
    (h : (l.map f).Nodup) (a b : α) (ha : a ∈ l) (hb : b ∈ l) (hf : f a = f b) :
    a = b := by
  induction l with
  | nil => simp at ha
  | cons x xs ih =>
    rw [List.map_cons, List.nodup_cons] at h
    rcases List.mem_cons.mp ha with rfl | ha' <;>
      rcases List.mem_cons.mp hb with rfl | hb'
    · rfl
    · exact absurd (hf ▸ List.mem_map_of_mem f hb') h.1
    · exact absurd (hf ▸ List.mem_map_of_mem f ha') h.1
    · exact ih h.2 ha' hb'

/-- `upsertSet` touches only the sets table and its fresh-id counter. -/
theorem upsertSet_keeps (st : SqliteState) (S : String) :
    (SqliteStorage.upsertSet st S).2.elements = st.elements ∧
    (SqliteStorage.upsertSet st S).2.dots = st.dots ∧
    (SqliteStorage.upsertSet st S).2.vv = st.vv ∧
    (SqliteStorage.upsertSet st S).2.nextElemId = st.nextElemId := by
  unfold SqliteStorage.upsertSet
  cases SqliteStorage.findSet st S <;> exact ⟨rfl, rfl, rfl, rfl⟩

/-- `upsertElem` either returns an existing row's id with the state intact,
or appends a fresh row and returns its id. -/
theorem upsertElem_cases (st : SqliteState) (sid : Nat) (v : Bytes) :
    ((SqliteStorage.upsertElem st sid v).2 = st ∧
      ∃ r ∈ st.elements, r.id = (SqliteStorage.upsertElem st sid v).1 ∧
        r.setId = sid ∧ r.value = v) ∨
    ((SqliteStorage.upsertElem st sid v).2 =
      { st with elements := st.elements ++ [⟨st.nextElemId, sid, v⟩],
                nextElemId := st.nextElemId + 1 } ∧
      (SqliteStorage.upsertElem st sid v).1 = st.nextElemId) := by
  unfold SqliteStorage.upsertElem
  cases hf : (st.elements.find? (fun e => e.setId == sid && e.value == v)).map (·.id) with
  | some id =>
    left
    refine ⟨rfl, ?_⟩
    obtain ⟨r, hr, hrid⟩ : ∃ r, st.elements.find? (fun e => e.setId == sid && e.value == v) =
        some r ∧ r.id = id := by
      cases hg : st.elements.find? (fun e => e.setId == sid && e.value == v) with
      | none => rw [hg] at hf; simp at hf
      | some r => rw [hg] at hf; exact ⟨r, rfl, by simpa using hf⟩
    have hprop := List.find?_some hr
    rw [Bool.and_eq_true, beq_iff_eq, beq_iff_eq] at hprop
    exact ⟨r, List.mem_of_find?_eq_some hr, hrid, hprop.1, hprop.2⟩
  | none => exact Or.inr ⟨rfl, rfl⟩

/-- `upsertElem` preserves the element-id schema constraint. -/
theorem upsertElem_elemIdsOk (st : SqliteState) (sid : Nat) (v : Bytes)
    (hE : ElemIdsOk st) : ElemIdsOk (SqliteStorage.upsertElem st sid v).2 := by
  rcases upsertElem_cases st sid v with ⟨heq, -⟩ | ⟨heq, -⟩
  · rw [heq]; exact hE
  · rw [heq]
    constructor
    · simp only [List.map_append, List.map_cons, List.map_nil]
      refine List.nodup_append.mpr ⟨hE.1, List.nodup_singleton _, ?_⟩
      intro i hi
      simp only [List.mem_singleton]
      intro heq2
      obtain ⟨r, hr, hrid⟩ := List.mem_map.mp hi
      have := hE.2 r hr
      omega
    · intro e he
      rcases List.mem_append.mp he with h | h
      · have := hE.2 e h
        simp only
        omega
      · simp only [List.mem_singleton] at h
        subst h
        simp

/-- Mid-transaction dot bound: every dot row is either covered by the
current `version_vector` table or is (a copy of) the acting dot, whose
table upsert closes the transaction. -/
def DotOkFor (dot : Dot) (st : SqliteState) : Prop :=
  ∀ d ∈ st.dots, d.counter ≤ st.vv.get d.actor_id ∨
    (d.actor_id = dot.actor_id ∧ d.counter = dot.counter)

/-- The closing `version_vector` upsert turns the mid-transaction dot bound
into I1 and leaves the other invariants alone. -/
theorem updVVTable_inv (st : SqliteState) (dot : Dot)
    (hE : ElemIdsOk st) (hD : DotOkFor dot st) (h2 : I2 st) (h3 : I3 st) :
    ElemIdsOk (SqliteStorage.updVVTable st dot) ∧ I1 (SqliteStorage.updVVTable st dot) ∧
    I2 (SqliteStorage.updVVTable st dot) ∧ I3 (SqliteStorage.updVVTable st dot) := by
  refine ⟨hE, ?_, h2, h3⟩
  intro d hd
  rcases hD d hd with hle | ⟨hact, hcnt⟩
  · exact le_trans hle (VersionVector.get_le_update st.vv dot.actor_id dot.counter d.actor_id)
  · rw [hact, hcnt]
    exact VersionVector.le_get_update_self st.vv dot.actor_id dot.counter

/-- The shape shared by `addStep` and `replicateAddStep`'s success case:
delete some dots scoped to element id `eid` from a state whose rows come
from `st` (modulo an upserted element row with id `eid`), then insert the
acting dot on `eid`.  All invariants survive, provided no surviving dot on
`eid` shares the acting dot's actor. -/
theorem addOut_inv (dot : Dot) (st stB stOut : SqliteState) (eid : Nat)
    (keep : DotRow → Bool)
    (hkeepScope : ∀ d, keep d = false → d.elemId = eid)
    (hkeepKey : ∀ d ∈ stB.dots,
      keep d = true → d.elemId = eid → d.actor_id ≠ dot.actor_id)
    (hout : stOut = { stB with dots := stB.dots.filter keep ++
      [⟨eid, dot.actor_id, dot.counter⟩] })
    (hEB : ElemIdsOk stB) (hBdots : stB.dots = st.dots) (hBvv : stB.vv = st.vv)
    (hBmem : ∀ r ∈ stB.elements, r.id ≠ eid → r ∈ st.elements)
    (hD : DotOkFor dot st) (h2 : I2 st) (h3 : I3 st) :
    ElemIdsOk stOut ∧ DotOkFor dot stOut ∧ I2 stOut ∧ I3 stOut ∧ stOut.vv = st.vv := by
  subst hout
  refine ⟨⟨hEB.1, hEB.2⟩, ?_, ?_, ?_, hBvv⟩
  · -- DotOkFor
    intro d hd
    dsimp only at hd ⊢
    rw [hBvv]
    rcases List.mem_append.mp hd with hmem | hmem
    · have hdin : d ∈ st.dots := by rw [← hBdots]; exact (List.mem_filter.mp hmem).1
      exact (hD d hdin).imp (le_trans · (le_of_eq rfl)) id
    · rw [List.mem_singleton] at hmem
      subst hmem
      exact Or.inr ⟨rfl, rfl⟩
  · -- I2
    intro r hr
    dsimp only at hr ⊢
    by_cases hid : r.id = eid
    · exact ⟨⟨eid, dot.actor_id, dot.counter⟩,
        List.mem_append.mpr (Or.inr (List.mem_singleton.mpr rfl)), hid.symm⟩
    · obtain ⟨d, hdin, hdid⟩ := h2 r (hBmem r hr hid)
      refine ⟨d, List.mem_append.mpr (Or.inl (List.mem_filter.mpr ⟨?_, ?_⟩)), hdid⟩
      · rw [hBdots]; exact hdin
      · cases hkd : keep d with
        | true => rfl
        | false => exact absurd (hdid ▸ hkeepScope d hkd) hid
  · -- I3
    unfold I3
    dsimp only
    rw [List.map_append]
    refine List.nodup_append.mpr ⟨?_, by simp, ?_⟩
    · have h3' : (stB.dots.map (fun d => (d.elemId, d.actor_id))).Nodup := by
        rw [hBdots]; exact h3
      exact List.Nodup.sublist (List.Sublist.map _ (List.filter_sublist _)) h3'
    · intro k hk1
      simp only [List.map_cons, List.map_nil, List.mem_singleton]
      intro hkeq
      obtain ⟨d, hdmem, hdk⟩ := List.mem_map.mp hk1
      obtain ⟨hdin, hdkeep⟩ := List.mem_filter.mp hdmem
      have hkey : d.elemId = eid ∧ d.actor_id = dot.actor_id := by
        have : (d.elemId, d.actor_id) = (eid, dot.actor_id) := by rw [hdk, hkeq]
        exact ⟨congrArg Prod.fst this, congrArg Prod.snd this⟩
      exact hkeepKey d hdin hdkeep hkey.1 hkey.2

/-- One `add_elements` iteration preserves the schema constraint, the
mid-transaction dot bound, I2 and I3, and does not touch the
`version_vector` table. -/
theorem addStep_inv (sid : Nat) (dot : Dot) (st : SqliteState) (e : Bytes)
    (hE : ElemIdsOk st) (hD : DotOkFor dot st) (h2 : I2 st) (h3 : I3 st) :
    ElemIdsOk (SqliteStorage.addStep sid dot st e).2 ∧
    DotOkFor dot (SqliteStorage.addStep sid dot st e).2 ∧
    I2 (SqliteStorage.addStep sid dot st e).2 ∧
    I3 (SqliteStorage.addStep sid dot st e).2 ∧
    (SqliteStorage.addStep sid dot st e).2.vv = st.vv := by
  have hEB := upsertElem_elemIdsOk st sid e hE
  have hcases := upsertElem_cases st sid e
  have hBdots : (SqliteStorage.upsertElem st sid e).2.dots = st.dots := by
    rcases hcases with ⟨hk, -⟩ | ⟨hk, -⟩ <;> rw [hk]
  have hBvv : (SqliteStorage.upsertElem st sid e).2.vv = st.vv := by
    rcases hcases with ⟨hk, -⟩ | ⟨hk, -⟩ <;> rw [hk]
  have hBmem : ∀ r ∈ (SqliteStorage.upsertElem st sid e).2.elements,
      r.id ≠ (SqliteStorage.upsertElem st sid e).1 → r ∈ st.elements := by
    rcases hcases with ⟨hk, -⟩ | ⟨hk, hid⟩
    · rw [hk]; exact fun r hr _ => hr
    · rw [hk]
      intro r hr hne
      rcases List.mem_append.mp hr with hmem | hmem
      · exact hmem
      · rw [List.mem_singleton] at hmem
        subst hmem
        exact absurd hid.symm hne
  exact addOut_inv dot st (SqliteStorage.upsertElem st sid e).2 _
    (SqliteStorage.upsertElem st sid e).1
    (fun d => !(d.elemId == (SqliteStorage.upsertElem st sid e).1))
    (fun d hkd => by simpa using hkd)
    (fun d _ hkd hde => absurd hde (by simpa using hkd))
    rfl hEB hBdots hBvv hBmem hD h2 h3

/-- The `add_elements` loop preserves the step invariants. -/
theorem addLoop_inv (sid : Nat) (dot : Dot) :
    ∀ (es : List Bytes) (st : SqliteState),
      ElemIdsOk st → DotOkFor dot st → I2 st → I3 st →
      ElemIdsOk (SqliteStorage.addLoop sid dot es st).2 ∧
      DotOkFor dot (SqliteStorage.addLoop sid dot es st).2 ∧
      I2 (SqliteStorage.addLoop sid dot es st).2 ∧
      I3 (SqliteStorage.addLoop sid dot es st).2 ∧
      (SqliteStorage.addLoop sid dot es st).2.vv = st.vv
  | [], st => fun hE hD h2 h3 => ⟨hE, hD, h2, h3, rfl⟩
  | e :: es, st => fun hE hD h2 h3 => by
    obtain ⟨hE1, hD1, h21, h31, hvv1⟩ := addStep_inv sid dot st e hE hD h2 h3
    obtain ⟨hE2, hD2, h22, h32, hvv2⟩ :=
      addLoop_inv sid dot es (SqliteStorage.addStep sid dot st e).2 hE1 hD1 h21 h31
    refine ⟨hE2, hD2, h22, h32, ?_⟩
    show (SqliteStorage.addLoop sid dot es (SqliteStorage.addStep sid dot st e).2).2.vv = st.vv
    rw [hvv2, hvv1]

/-- `upsertSet` preserves all four invariants (it only touches the sets
table). -/
theorem upsertSet_inv (st : SqliteState) (S : String)
    (hE : ElemIdsOk st) (h1 : I1 st) (h2 : I2 st) (h3 : I3 st) :
    ElemIdsOk (SqliteStorage.upsertSet st S).2 ∧ I1 (SqliteStorage.upsertSet st S).2 ∧
    I2 (SqliteStorage.upsertSet st S).2 ∧ I3 (SqliteStorage.upsertSet st S).2 := by
  obtain ⟨hel, hdots, hvv, hnext⟩ := upsertSet_keeps st S
  refine ⟨⟨by rw [hel]; exact hE.1, by rw [hel, hnext]; exact hE.2⟩, ?_, ?_, ?_⟩
  · intro d hd
    rw [hdots] at hd
    rw [hvv]
    exact h1 d hd
  · intro r hr
    rw [hel] at hr
    obtain ⟨d, hdin, hdid⟩ := h2 r hr
    exact ⟨d, by rw [hdots]; exact hdin, hdid⟩
  · unfold I3
    rw [hdots]
    exact h3

/-- `SqliteStorage.add_elements` preserves the schema constraint and
invariants I1–I3. -/
theorem add_elements_inv (st : SqliteState) (S : String) (es : List Bytes) (d : Dot)
    (ds : List Dot) (st' : SqliteState)
    (h : SqliteStorage.add_elements st S es d = .ok (ds, st'))
    (hE : ElemIdsOk st) (h1 : I1 st) (h2 : I2 st) (h3 : I3 st) :
    ElemIdsOk st' ∧ I1 st' ∧ I2 st' ∧ I3 st' := by
  unfold SqliteStorage.add_elements at h
  by_cases hes : es.isEmpty
  · rw [if_pos hes] at h
    obtain ⟨-, rfl⟩ : ds = [] ∧ st = st' := by
      constructor <;> [skip; skip] <;> injection h with h' <;> cases h' <;> rfl
    exact ⟨hE, h1, h2, h3⟩
  · rw [if_neg hes] at h
    simp only [Except.ok.injEq, Prod.mk.injEq] at h
    obtain ⟨-, hst'⟩ := h
    obtain ⟨hEA, h1A, h2A, h3A⟩ := upsertSet_inv st S hE h1 h2 h3
    have hDA : DotOkFor d (SqliteStorage.upsertSet st S).2 :=
      fun dr hdr => Or.inl (h1A dr hdr)
    obtain ⟨hEL, hDL, h2L, h3L, hvvL⟩ :=
      addLoop_inv (SqliteStorage.upsertSet st S).1 d es (SqliteStorage.upsertSet st S).2
        hEA hDA h2A h3A
    have hDL' : DotOkFor d (SqliteStorage.addLoop (SqliteStorage.upsertSet st S).1 d es
        (SqliteStorage.upsertSet st S).2).2 := hDL
    obtain ⟨hE', h1', h2', h3'⟩ :=
      updVVTable_inv _ d hEL hDL' h2L h3L
    rw [← hst']
    exact ⟨hE', h1', h2', h3'⟩

/-- One `remove_elements` iteration preserves the schema constraint and
I1–I3, and does not touch the `version_vector` table. -/
theorem removeStep_inv (sid : Nat) (st : SqliteState) (acc : List Dot) (e : Bytes)
    (hE : ElemIdsOk st) (h1 : I1 st) (h2 : I2 st) (h3 : I3 st) :
    ElemIdsOk (SqliteStorage.removeStep sid st acc e).2 ∧
    I1 (SqliteStorage.removeStep sid st acc e).2 ∧
    I2 (SqliteStorage.removeStep sid st acc e).2 ∧
    I3 (SqliteStorage.removeStep sid st acc e).2 ∧
    (SqliteStorage.removeStep sid st acc e).2.vv = st.vv := by
  unfold SqliteStorage.removeStep
  dsimp only
  split
  case isTrue hempty =>
    -- Nothing was displaced this far: no dot matched the deletion filter.
    rw [List.isEmpty_eq_true, List.append_eq_nil, List.map_eq_nil_iff,
      List.filter_eq_nil_iff] at hempty
    have hdots : st.dots.filter (fun d =>
        !(((st.elements.filter (fun r => r.setId == sid && r.value == e)).map
          (·.id)).contains d.elemId)) = st.dots := by
      apply List.filter_eq_self.mpr
      intro d hd
      rw [Bool.not_eq_true']
      exact Bool.not_eq_true _ |>.mp (hempty.2 d hd)
    refine ⟨⟨hE.1, hE.2⟩, ?_, ?_, ?_, rfl⟩
    · intro d hd
      dsimp only at hd
      rw [hdots] at hd
      exact h1 d hd
    · intro r hr
      dsimp only at hr ⊢
      rw [hdots]
      exact h2 r hr
    · unfold I3
      dsimp only
      rw [hdots]
      exact h3
  case isFalse hne =>
    refine ⟨⟨?_, ?_⟩, ?_, ?_, ?_, rfl⟩
    · exact List.Nodup.sublist (List.Sublist.map _ (List.filter_sublist _)) hE.1
    · intro r hr
      dsimp only at hr
      exact hE.2 r (List.mem_filter.mp hr).1
    · intro d hd
      dsimp only at hd
      exact h1 d (List.mem_filter.mp hd).1
    · intro r hr
      dsimp only at hr ⊢
      obtain ⟨hrin, hrnot⟩ := List.mem_filter.mp hr
      obtain ⟨d, hdin, hdid⟩ := h2 r hrin
      refine ⟨d, List.mem_filter.mpr ⟨hdin, ?_⟩, hdid⟩
      rw [Bool.not_eq_true']
      rw [Bool.not_eq_true'] at hrnot
      cases hcont : ((st.elements.filter (fun r => r.setId == sid && r.value == e)).map
          (·.id)).contains d.elemId with
      | false => rfl
      | true =>
        exfalso
        obtain ⟨r', hr'mem, hr'id⟩ :=
          List.mem_map.mp (List.elem_iff.mp hcont)
        obtain ⟨hr'in, hr'match⟩ := List.mem_filter.mp hr'mem
        have : r = r' :=
          eq_of_mem_of_nodup_map (·.id) st.elements hE.1 r r' hrin hr'in
            (by rw [hdid] at hr'id; exact hr'id.symm)
        rw [this, hr'match] at hrnot
        exact absurd hrnot (by simp)
    · unfold I3
      dsimp only
      exact List.Nodup.sublist (List.Sublist.map _ (List.filter_sublist _)) h3

/-- The `remove_elements` loop preserves the invariants. -/
theorem removeLoop_inv (sid : Nat) :
    ∀ (es : List Bytes) (st : SqliteState) (acc : List Dot),
      ElemIdsOk st → I1 st → I2 st → I3 st →
      ElemIdsOk (SqliteStorage.removeLoop sid es st acc).2 ∧
      I1 (SqliteStorage.removeLoop sid es st acc).2 ∧
      I2 (SqliteStorage.removeLoop sid es st acc).2 ∧
      I3 (SqliteStorage.removeLoop sid es st acc).2 ∧
      (SqliteStorage.removeLoop sid es st acc).2.vv = st.vv
  | [], st, acc => fun hE h1 h2 h3 => ⟨hE, h1, h2, h3, rfl⟩
  | e :: es, st, acc => fun hE h1 h2 h3 => by
    obtain ⟨hE1, h11, h21, h31, hvv1⟩ := removeStep_inv sid st acc e hE h1 h2 h3
    obtain ⟨hE2, h12, h22, h32, hvv2⟩ :=
      removeLoop_inv sid es (SqliteStorage.removeStep sid st acc e).2
        (SqliteStorage.removeStep sid st acc e).1 hE1 h11 h21 h31
    refine ⟨hE2, h12, h22, h32, ?_⟩
    show (SqliteStorage.removeLoop sid es (SqliteStorage.removeStep sid st acc e).2
      (SqliteStorage.removeStep sid st acc e).1).2.vv = st.vv
    rw [hvv2, hvv1]

/-- `SqliteStorage.remove_elements` preserves the schema constraint and
invariants I1–I3. -/
theorem remove_elements_inv (st : SqliteState) (S : String) (es : List Bytes) (d : Dot)
    (ds : List Dot) (st' : SqliteState)
    (h : SqliteStorage.remove_elements st S es d = .ok (ds, st'))
    (hE : ElemIdsOk st) (h1 : I1 st) (h2 : I2 st) (h3 : I3 st) :
    ElemIdsOk st' ∧ I1 st' ∧ I2 st' ∧ I3 st' := by
  unfold SqliteStorage.remove_elements at h
  by_cases hes : es.isEmpty
  · rw [if_pos hes] at h
    obtain rfl : st = st' := by injection h with h'; cases h'; rfl
    exact ⟨hE, h1, h2, h3⟩
  · rw [if_neg hes] at h
    cases hfind : SqliteStorage.findSet st S with
    | none =>
      rw [hfind] at h
      obtain rfl : st = st' := by injection h with h'; cases h'; rfl
      exact ⟨hE, h1, h2, h3⟩
    | some sid =>
      rw [hfind] at h
      simp only [Except.ok.injEq, Prod.mk.injEq] at h
      obtain ⟨-, hst'⟩ := h
      obtain ⟨hEL, h1L, h2L, h3L, hvvL⟩ := removeLoop_inv sid es st [] hE h1 h2 h3
      have hDL : DotOkFor d (SqliteStorage.removeLoop sid es st []).2 :=
        fun dr hdr => Or.inl (h1L dr hdr)
      obtain ⟨hE', h1', h2', h3'⟩ := updVVTable_inv _ d hEL hDL h2L h3L
      rw [← hst']
      exact ⟨hE', h1', h2', h3'⟩

/-- A successful `replicate_add` iteration preserves the schema constraint,
the mid-transaction dot bound, I2 and I3, and does not touch the
`version_vector` table.  (A failed insert aborts the transaction instead.) -/
theorem replicateAddStep_inv (sid : Nat) (removed : List Dot) (dot : Dot)
    (st : SqliteState) (e : Bytes) (st' : SqliteState)
    (h : SqliteStorage.replicateAddStep sid removed dot st e = .ok st')
    (hE : ElemIdsOk st) (hD : DotOkFor dot st) (h2 : I2 st) (h3 : I3 st) :
    ElemIdsOk st' ∧ DotOkFor dot st' ∧ I2 st' ∧ I3 st' ∧ st'.vv = st.vv := by
  have hEB := upsertElem_elemIdsOk st sid e hE
  have hcases := upsertElem_cases st sid e
  have hBdots : (SqliteStorage.upsertElem st sid e).2.dots = st.dots := by
    rcases hcases with ⟨hk, -⟩ | ⟨hk, -⟩ <;> rw [hk]
  have hBvv : (SqliteStorage.upsertElem st sid e).2.vv = st.vv := by
    rcases hcases with ⟨hk, -⟩ | ⟨hk, -⟩ <;> rw [hk]
  have hBmem : ∀ r ∈ (SqliteStorage.upsertElem st sid e).2.elements,
      r.id ≠ (SqliteStorage.upsertElem st sid e).1 → r ∈ st.elements := by
    rcases hcases with ⟨hk, -⟩ | ⟨hk, hid⟩
    · rw [hk]; exact fun r hr _ => hr
    · rw [hk]
      intro r hr hne
      rcases List.mem_append.mp hr with hmem | hmem
      · exact hmem
      · rw [List.mem_singleton] at hmem
        subst hmem
        exact absurd hid.symm hne
  unfold SqliteStorage.replicateAddStep at h
  dsimp only at h
  by_cases hrem : removed.isEmpty
  · rw [if_pos hrem] at h
    split at h
    next hany => exact absurd h (by simp)
    next hany =>
      injection h with h'
      subst h'
      refine addOut_inv dot st (SqliteStorage.upsertElem st sid e).2 _
        (SqliteStorage.upsertElem st sid e).1 (fun _ => true)
        (fun d hkd => by simp at hkd)
        (fun d hdin _ hde hact => ?_) ?_ hEB hBdots hBvv hBmem hD h2 h3
      · rw [Bool.not_eq_true, List.any_eq_false] at hany
        · exact hany d hdin (by simp [hde, hact])
      · rw [List.filter_true]
  · rw [if_neg hrem] at h
    split at h
    next hany => exact absurd h (by simp)
    next hany =>
      injection h with h'
      subst h'
      refine addOut_inv dot st (SqliteStorage.upsertElem st sid e).2 _
        (SqliteStorage.upsertElem st sid e).1
        (fun d => !(d.elemId == (SqliteStorage.upsertElem st sid e).1 &&
          removed.contains (Dot.mk d.actor_id d.counter)))
        (fun d hkd => by
          rw [Bool.not_eq_false', Bool.and_eq_true, beq_iff_eq] at hkd
          exact hkd.1)
        (fun d hdin hkd hde hact => ?_) rfl hEB hBdots hBvv hBmem hD h2 h3
      rw [Bool.not_eq_true, List.any_eq_false] at hany
      have hdin2 : d ∈ (SqliteStorage.upsertElem st sid e).2.dots.filter
          (fun d => !(d.elemId == (SqliteStorage.upsertElem st sid e).1 &&
            removed.contains (Dot.mk d.actor_id d.counter))) :=
        List.mem_filter.mpr ⟨hdin, hkd⟩
      exact hany d hdin2 (by simp [hde, hact])

/-- The `replicate_add` loop preserves the invariants on success. -/
theorem replicateAddLoop_inv (sid : Nat) (removed : List Dot) (dot : Dot) :
    ∀ (es : List Bytes) (st st' : SqliteState),
      SqliteStorage.replicateAddLoop sid removed dot es st = .ok st' →
      ElemIdsOk st → DotOkFor dot st → I2 st → I3 st →
      ElemIdsOk st' ∧ DotOkFor dot st' ∧ I2 st' ∧ I3 st' ∧ st'.vv = st.vv
  | [], st, st' => fun h hE hD h2 h3 => by
    obtain rfl : st = st' := by injection h
    exact ⟨hE, hD, h2, h3, rfl⟩
  | e :: es, st, st' => fun h hE hD h2 h3 => by
    unfold SqliteStorage.replicateAddLoop at h
    cases hstep : SqliteStorage.replicateAddStep sid removed dot st e with
    | error err => rw [hstep] at h; exact absurd h (by simp)
    | ok st1 =>
      rw [hstep] at h
      obtain ⟨hE1, hD1, h21, h31, hvv1⟩ :=
        replicateAddStep_inv sid removed dot st e st1 hstep hE hD h2 h3
      obtain ⟨hE2, hD2, h22, h32, hvv2⟩ :=
        replicateAddLoop_inv sid removed dot es st1 st' h hE1 hD1 h21 h31
      exact ⟨hE2, hD2, h22, h32, by rw [hvv2, hvv1]⟩

/-- `SqliteStorage.replicate_add` preserves the schema constraint and
invariants I1–I3 whenever it commits. -/
theorem replicate_add_inv (st : SqliteState) (S : String) (es : List Bytes)
    (removed : List Dot) (d : Dot) (st' : SqliteState)
    (h : SqliteStorage.replicate_add st S es removed d = .ok st')
    (hE : ElemIdsOk st) (h1 : I1 st) (h2 : I2 st) (h3 : I3 st) :
    ElemIdsOk st' ∧ I1 st' ∧ I2 st' ∧ I3 st' := by
  unfold SqliteStorage.replicate_add at h
  by_cases hes : es.isEmpty
  · rw [if_pos hes] at h
    obtain rfl : st = st' := by injection h
    exact ⟨hE, h1, h2, h3⟩
  · rw [if_neg hes] at h
    dsimp only at h
    obtain ⟨hEA, h1A, h2A, h3A⟩ := upsertSet_inv st S hE h1 h2 h3
    have hDA : DotOkFor d (SqliteStorage.upsertSet st S).2 :=
      fun dr hdr => Or.inl (h1A dr hdr)
    cases hloop : SqliteStorage.replicateAddLoop (SqliteStorage.upsertSet st S).1 removed d
        es (SqliteStorage.upsertSet st S).2 with
    | error err => rw [hloop] at h; exact absurd h (by simp)
    | ok st2 =>
      rw [hloop] at h
      injection h with h'
      obtain ⟨hEL, hDL, h2L, h3L, hvvL⟩ :=
        replicateAddLoop_inv (SqliteStorage.upsertSet st S).1 removed d es
          (SqliteStorage.upsertSet st S).2 st2 hloop hEA hDA h2A h3A
      obtain ⟨hE', h1', h2', h3'⟩ := updVVTable_inv st2 d hEL hDL h2L h3L
      rw [← h']
      exact ⟨hE', h1', h2', h3'⟩

/-- The tail of a `replicate_remove` iteration: after deleting some dots
scoped to element id `eid`, drop the element rows with id `eid` exactly
when no dot on `eid` remains.  All invariants survive. -/
theorem replicateRemoveOut_inv (st st1 stOut : SqliteState) (eid : Nat)
    (hout : stOut = if (st1.dots.filter (fun d => d.elemId == eid)).length == 0
      then { st1 with elements := st1.elements.filter (fun r => !(r.id == eid)) }
      else st1)
    (h1el : st1.elements = st.elements) (h1vv : st1.vv = st.vv)
    (h1nextE : st1.nextElemId = st.nextElemId)
    (hdsub : st1.dots.Sublist st.dots)
    (hdkeep : ∀ d ∈ st.dots, d.elemId ≠ eid → d ∈ st1.dots)
    (hE : ElemIdsOk st) (h1 : I1 st) (h2 : I2 st) (h3 : I3 st) :
    ElemIdsOk stOut ∧ I1 stOut ∧ I2 stOut ∧ I3 stOut ∧ stOut.vv = st.vv := by
  subst hout
  split
  next hcount =>
    refine ⟨⟨?_, ?_⟩, ?_, ?_, ?_, ?_⟩
    · dsimp only
      rw [h1el]
      exact List.Nodup.sublist (List.Sublist.map _ (List.filter_sublist _)) hE.1
    · dsimp only
      intro r hr
      rw [h1nextE]
      have hrin : r ∈ st.elements := by
        rw [← h1el]; exact (List.mem_filter.mp hr).1
      exact hE.2 r hrin
    · intro d hd
      dsimp only at hd ⊢
      rw [h1vv]
      exact h1 d (hdsub.subset hd)
    · intro r hr
      dsimp only at hr ⊢
      obtain ⟨hrin, hrne⟩ := List.mem_filter.mp hr
      rw [h1el] at hrin
      rw [Bool.not_eq_eq_eq_not, Bool.not_true, beq_eq_false_iff_ne] at hrne
      obtain ⟨d, hdin, hdid⟩ := h2 r hrin
      exact ⟨d, hdkeep d hdin (by rw [hdid]; exact hrne), hdid⟩
    · unfold I3
      dsimp only
      exact List.Nodup.sublist (List.Sublist.map _ hdsub) h3
    · dsimp only
      exact h1vv
  next hcount =>
    refine ⟨⟨?_, ?_⟩, ?_, ?_, ?_, h1vv⟩
    · rw [h1el]; exact hE.1
    · intro r hr
      rw [h1el] at hr
      rw [h1nextE]
      exact hE.2 r hr
    · intro d hd
      rw [h1vv]
      exact h1 d (hdsub.subset hd)
    · intro r hr
      rw [h1el] at hr
      by_cases hid : r.id = eid
      · have hne : st1.dots.filter (fun d => d.elemId == eid) ≠ [] := by
          intro hnil
          rw [hnil] at hcount
          simp at hcount
        obtain ⟨d, hdmem⟩ := List.exists_mem_of_ne_nil _ hne
        obtain ⟨hdin, hdeq⟩ := List.mem_filter.mp hdmem
        rw [beq_iff_eq] at hdeq
        exact ⟨d, hdin, by rw [hdeq, hid]⟩
      · obtain ⟨d, hdin, hdid⟩ := h2 r hr
        exact ⟨d, hdkeep d hdin (by rw [hdid]; exact hid), hdid⟩
    · unfold I3
      exact List.Nodup.sublist (List.Sublist.map _ hdsub) h3

/-- One `replicate_remove` iteration preserves the schema constraint and
I1–I3, and does not touch the `version_vector` table. -/
theorem replicateRemoveStep_inv (sid : Nat) (removed : List Dot) (st : SqliteState)
    (e : Bytes) (hE : ElemIdsOk st) (h1 : I1 st) (h2 : I2 st) (h3 : I3 st) :
    ElemIdsOk (SqliteStorage.replicateRemoveStep sid removed st e) ∧
    I1 (SqliteStorage.replicateRemoveStep sid removed st e) ∧
    I2 (SqliteStorage.replicateRemoveStep sid removed st e) ∧
    I3 (SqliteStorage.replicateRemoveStep sid removed st e) ∧
    (SqliteStorage.replicateRemoveStep sid removed st e).vv = st.vv := by
  unfold SqliteStorage.replicateRemoveStep
  cases hfind : (st.elements.find? (fun r => r.setId == sid && r.value == e)).map (·.id) with
  | none => exact ⟨hE, h1, h2, h3, rfl⟩
  | some eid =>
    dsimp only
    by_cases hrem : removed.isEmpty
    · rw [if_pos hrem]
      exact replicateRemoveOut_inv st st _ eid rfl rfl rfl rfl (List.Sublist.refl _)
        (fun d hd _ => hd) hE h1 h2 h3
    · rw [if_neg hrem]
      refine replicateRemoveOut_inv st _ _ eid rfl rfl rfl rfl (List.filter_sublist _)
        (fun d hd hne => List.mem_filter.mpr ⟨hd, by simp [hne]⟩) hE h1 h2 h3

/-- The `replicate_remove` loop preserves the invariants. -/
theorem replicateRemoveLoop_inv (sid : Nat) (removed : List Dot) :
    ∀ (es : List Bytes) (st : SqliteState),
      ElemIdsOk st → I1 st → I2 st → I3 st →
      ElemIdsOk (SqliteStorage.replicateRemoveLoop sid removed es st) ∧
      I1 (SqliteStorage.replicateRemoveLoop sid removed es st) ∧
      I2 (SqliteStorage.replicateRemoveLoop sid removed es st) ∧
      I3 (SqliteStorage.replicateRemoveLoop sid removed es st) ∧
      (SqliteStorage.replicateRemoveLoop sid removed es st).vv = st.vv
  | [], st => fun hE h1 h2 h3 => ⟨hE, h1, h2, h3, rfl⟩
  | e :: es, st => fun hE h1 h2 h3 => by
    obtain ⟨hE1, h11, h21, h31, hvv1⟩ := replicateRemoveStep_inv sid removed st e hE h1 h2 h3
    obtain ⟨hE2, h12, h22, h32, hvv2⟩ :=
      replicateRemoveLoop_inv sid removed es (SqliteStorage.replicateRemoveStep sid removed st e)
        hE1 h11 h21 h31
    refine ⟨hE2, h12, h22, h32, ?_⟩
    show (SqliteStorage.replicateRemoveLoop sid removed es
      (SqliteStorage.replicateRemoveStep sid removed st e)).vv = st.vv
    rw [hvv2, hvv1]

/-- `SqliteStorage.replicate_remove` preserves the schema constraint and
invariants I1–I3. -/
theorem replicate_remove_inv (st : SqliteState) (S : String) (es : List Bytes)
    (removed : List Dot) (d : Dot) (st' : SqliteState)
    (h : SqliteStorage.replicate_remove st S es removed d = .ok st')
    (hE : ElemIdsOk st) (h1 : I1 st) (h2 : I2 st) (h3 : I3 st) :
    ElemIdsOk st' ∧ I1 st' ∧ I2 st' ∧ I3 st' := by
  unfold SqliteStorage.replicate_remove at h
  by_cases hes : es.isEmpty
  · rw [if_pos hes] at h
    obtain rfl : st = st' := by injection h
    exact ⟨hE, h1, h2, h3⟩
  · rw [if_neg hes] at h
    cases hfind : SqliteStorage.findSet st S with
    | none =>
      rw [hfind] at h
      obtain rfl : st = st' := by injection h
      exact ⟨hE, h1, h2, h3⟩
    | some sid =>
      rw [hfind] at h
      injection h with h'
      obtain ⟨hEL, h1L, h2L, h3L, hvvL⟩ := replicateRemoveLoop_inv sid removed es st hE h1 h2 h3
      have hDL : DotOkFor d (SqliteStorage.replicateRemoveLoop sid removed es st) :=
        fun dr hdr => Or.inl (h1L dr hdr)
      obtain ⟨hE', h1', h2', h3'⟩ := updVVTable_inv _ d hEL hDL h2L h3L
      rw [← h']
      exact ⟨hE', h1', h2', h3'⟩

/-- Claim C6: every committed mutating storage operation — `add_elements`,
`remove_elements`, `replicate_add` and `replicate_remove` — preserves the
invariants, starting from any state that satisfies them: (I1) every dot
row's counter is ≤ the `version_vector` counter of its actor, (I2) every
element row has at least one dot row, (I3) no two dot rows share
`(element_id, actor_id)`.  `ElemIdsOk` is the `elements.id INTEGER PRIMARY
KEY` constraint, which the database engine enforces on every stored state
(and which these operations also preserve). -/
theorem storage_ops_preserve_invariants (st : SqliteState)
    (hE : ElemIdsOk st) (hI : I1 st ∧ I2 st ∧ I3 st) :
    (∀ S es d ds st', SqliteStorage.add_elements st S es d = .ok (ds, st') →
      I1 st' ∧ I2 st' ∧ I3 st' ∧ ElemIdsOk st') ∧
    (∀ S es d ds st', SqliteStorage.remove_elements st S es d = .ok (ds, st') →
      I1 st' ∧ I2 st' ∧ I3 st' ∧ ElemIdsOk st') ∧
    (∀ S es removed d st', SqliteStorage.replicate_add st S es removed d = .ok st' →
      I1 st' ∧ I2 st' ∧ I3 st' ∧ ElemIdsOk st') ∧
    (∀ S es removed d st', SqliteStorage.replicate_remove st S es removed d = .ok st' →
      I1 st' ∧ I2 st' ∧ I3 st' ∧ ElemIdsOk st') := by
  obtain ⟨h1, h2, h3⟩ := hI
  refine ⟨?_, ?_, ?_, ?_⟩
  · intro S es d ds st' h
    obtain ⟨hE', h1', h2', h3'⟩ := add_elements_inv st S es d ds st' h hE h1 h2 h3
    exact ⟨h1', h2', h3', hE'⟩
  · intro S es d ds st' h
    obtain ⟨hE', h1', h2', h3'⟩ := remove_elements_inv st S es d ds st' h hE h1 h2 h3
    exact ⟨h1', h2', h3', hE'⟩
  · intro S es removed d st' h
    obtain ⟨hE', h1', h2', h3'⟩ := replicate_add_inv st S es removed d st' h hE h1 h2 h3
    exact ⟨h1', h2', h3', hE'⟩
  · intro S es removed d st' h
    obtain ⟨hE', h1', h2', h3'⟩ := replicate_remove_inv st S es removed d st' h hE h1 h2 h3
    exact ⟨h1', h2', h3', hE'⟩

/-- Claim C6 (witness): starting from the empty database (which satisfies
the invariants), one committed `add_elements` yields a state satisfying
I1–I3. -/
theorem storage_ops_preserve_invariants_witness :
    I1 ⟨[⟨0, "s"⟩], [⟨0, 0, xB⟩], [⟨0, actorA, 1⟩], ⟨[(actorA, 1)]⟩, 1, 1⟩ ∧
    I2 ⟨[⟨0, "s"⟩], [⟨0, 0, xB⟩], [⟨0, actorA, 1⟩], ⟨[(actorA, 1)]⟩, 1, 1⟩ ∧
    I3 ⟨[⟨0, "s"⟩], [⟨0, 0, xB⟩], [⟨0, actorA, 1⟩], ⟨[(actorA, 1)]⟩, 1, 1⟩ ∧
    ElemIdsOk ⟨[⟨0, "s"⟩], [⟨0, 0, xB⟩], [⟨0, actorA, 1⟩], ⟨[(actorA, 1)]⟩, 1, 1⟩ :=
  (storage_ops_preserve_invariants SqliteState.empty (by decide)
    ⟨by decide, by decide, by decide⟩).1 "s" [xB] ⟨actorA, 1⟩ []
    ⟨[⟨0, "s"⟩], [⟨0, 0, xB⟩], [⟨0, actorA, 1⟩], ⟨[(actorA, 1)]⟩, 1, 1⟩ rfl

/-! ### Decimal round trip (claim C9, part 1) -/

/-- One step of the fuelled rendering. -/
theorem toDecCore_succ (fuel n : Nat) (acc : List Char) :
    toDecCore (fuel + 1) n acc =
      if n < 10 then digitChar n :: acc
      else toDecCore fuel (n / 10) (digitChar (n % 10) :: acc) := rfl

/-- The rendering accumulator distributes over append. -/
theorem toDecCore_acc : ∀ fuel : Nat, ∀ n, n < fuel → ∀ acc : List Char,
    toDecCore fuel n acc = toDecCore fuel n [] ++ acc
  | 0, n, hn => by omega
  | fuel + 1, n, hn => fun acc => by
    rw [toDecCore_succ, toDecCore_succ]
    by_cases h10 : n < 10
    · rw [if_pos h10, if_pos h10]
      rfl
    · rw [if_neg h10, if_neg h10]
      have hdiv : n / 10 < n := Nat.div_lt_self (by omega) (by omega)
      have hlt : n / 10 < fuel := by omega
      rw [toDecCore_acc fuel (n / 10) hlt (digitChar (n % 10) :: acc),
        toDecCore_acc fuel (n / 10) hlt [digitChar (n % 10)]]
      simp

/-- The fuel is immaterial once it exceeds the value. -/
theorem toDecCore_fuel : ∀ fuel₁ fuel₂ n : Nat, n < fuel₁ → n < fuel₂ →
    ∀ acc, toDecCore fuel₁ n acc = toDecCore fuel₂ n acc
  | 0, _, n, hn, _ => by omega
  | _ + 1, 0, n, _, hn => by omega
  | fuel₁ + 1, fuel₂ + 1, n, hn₁, hn₂ => fun acc => by
    rw [toDecCore_succ, toDecCore_succ]
    by_cases h10 : n < 10
    · rw [if_pos h10, if_pos h10]
    · rw [if_neg h10, if_neg h10]
      have hdiv : n / 10 < n := Nat.div_lt_self (by omega) (by omega)
      have h1 : n / 10 < fuel₁ := by omega
      have h2 : n / 10 < fuel₂ := by omega
      exact toDecCore_fuel fuel₁ fuel₂ (n / 10) h1 h2 _

/-- The recursive characterisation of `toDec`. -/
theorem toDec_eq (n : Nat) :
    toDec n = if n < 10 then [digitChar n]
      else toDec (n / 10) ++ [digitChar (n % 10)] := by
  by_cases h10 : n < 10
  · rw [if_pos h10]
    show toDecCore (n + 1) n [] = _
    rw [toDecCore_succ, if_pos h10]
  · rw [if_neg h10]
    show toDecCore (n + 1) n [] = toDecCore (n / 10 + 1) (n / 10) [] ++ [digitChar (n % 10)]
    have hdiv : n / 10 < n := Nat.div_lt_self (by omega) (by omega)
    calc toDecCore (n + 1) n []
        = toDecCore n (n / 10) [digitChar (n % 10)] := by
          rw [toDecCore_succ, if_neg h10]
      _ = toDecCore (n / 10 + 1) (n / 10) [digitChar (n % 10)] :=
          toDecCore_fuel n (n / 10 + 1) (n / 10) (by omega) (by omega) _
      _ = toDecCore (n / 10 + 1) (n / 10) [] ++ [digitChar (n % 10)] :=
          toDecCore_acc (n / 10 + 1) (n / 10) (by omega) _

/-- The digit characters in decimal order. -/
theorem digitChar_toNat (n : Nat) (h : n < 10) : (digitChar n).toNat = 48 + n := by
  interval_cases n <;> rfl

/-- Every character of a decimal rendering is a digit. -/
theorem toDec_digits (n : Nat) : ∀ c ∈ toDec n, 48 ≤ c.toNat ∧ c.toNat ≤ 57 := by
  induction n using Nat.strong_induction_on with
  | _ n ih =>
    rw [toDec_eq]
    by_cases h10 : n < 10
    · rw [if_pos h10]
      intro c hc
      rw [List.mem_singleton] at hc
      subst hc
      rw [digitChar_toNat n h10]
      omega
    · rw [if_neg h10]
      intro c hc
      rcases List.mem_append.mp hc with hc | hc
      · exact ih (n / 10) (Nat.div_lt_self (by omega) (by omega)) c hc
      · rw [List.mem_singleton] at hc
        subst hc
        have hm : n % 10 < 10 := Nat.mod_lt n (by omega)
        rw [digitChar_toNat (n % 10) hm]
        omega

/-- A decimal rendering is never empty. -/
theorem toDec_ne_nil (n : Nat) : toDec n ≠ [] := by
  rw [toDec_eq]
  by_cases h10 : n < 10
  · rw [if_pos h10]; simp
  · rw [if_neg h10]; simp

/-- `parseDigits` on the empty tail returns the accumulator. -/
theorem parseDigits_nil (acc : Nat) : parseDigits acc [] = some acc := rfl

/-- `parseDigits` consumes one character at a time. -/
theorem parseDigits_cons (acc : Nat) (c : Char) (cs : List Char) :
    parseDigits acc (c :: cs) =
      if 48 ≤ c.toNat ∧ c.toNat ≤ 57 then parseDigits (acc * 10 + (c.toNat - 48)) cs
      else none := rfl

/-- Digit accumulation splits along append. -/
theorem parseDigits_append (l : List Char) : ∀ (acc : Nat) (m : List Char),
    parseDigits acc (l ++ m) =
      match parseDigits acc l with
      | some k => parseDigits k m
      | none => none := by
  induction l with
  | nil => intro acc m; rfl
  | cons c cs ih =>
    intro acc m
    rw [List.cons_append, parseDigits_cons, parseDigits_cons]
    by_cases hd : 48 ≤ c.toNat ∧ c.toNat ≤ 57
    · rw [if_pos hd, if_pos hd]
      exact ih _ m
    · rw [if_neg hd, if_neg hd]

/-- Parsing a decimal rendering recovers the value (with the accumulator
shifted by the digit count). -/
theorem parseDigits_toDec (n : Nat) : ∀ acc : Nat,
    parseDigits acc (toDec n) = some (acc * 10 ^ (toDec n).length + n) := by
  induction n using Nat.strong_induction_on with
  | _ n ih =>
    intro acc
    rw [toDec_eq]
    by_cases h10 : n < 10
    · rw [if_pos h10]
      rw [parseDigits_cons,
        if_pos ⟨by rw [digitChar_toNat n h10]; omega, by rw [digitChar_toNat n h10]; omega⟩,
        parseDigits_nil, digitChar_toNat n h10]
      simp only [List.length_singleton, pow_one, Option.some.injEq]
      omega
    · rw [if_neg h10]
      rw [parseDigits_append, ih (n / 10) (Nat.div_lt_self (by omega) (by omega)) acc]
      have hm : n % 10 < 10 := Nat.mod_lt n (by omega)
      show parseDigits (acc * 10 ^ (toDec (n / 10)).length + n / 10) [digitChar (n % 10)] = _
      rw [parseDigits_cons,
        if_pos ⟨by rw [digitChar_toNat _ hm]; omega, by rw [digitChar_toNat _ hm]; omega⟩,
        parseDigits_nil, digitChar_toNat _ hm]
      simp only [List.length_append, List.length_singleton, Option.some.injEq]
      have hdm := Nat.div_add_mod n 10
      rw [pow_succ]
      ring_nf
      omega

/-- `parseNat` consumes its head. -/
theorem parseNat_cons (c : Char) (cs : List Char) :
    parseNat (c :: cs) =
      if c = '+' then (match cs with | [] => none | _ => parseDigits 0 cs)
      else if 48 ≤ c.toNat ∧ c.toNat ≤ 57 then parseDigits 0 (c :: cs) else none := rfl

/-- `parse::<u64>` of a decimal rendering recovers the value. -/
theorem parseNat_toDec (n : Nat) : parseNat (toDec n) = some n := by
  cases hd : toDec n with
  | nil => exact absurd hd (toDec_ne_nil n)
  | cons c cs =>
    have hcdig : 48 ≤ c.toNat ∧ c.toNat ≤ 57 :=
      toDec_digits n c (by rw [hd]; simp)
    have hplus : ¬ c = '+' := by
      intro hc
      rw [hc] at hcdig
      revert hcdig
      decide
    rw [parseNat_cons, if_neg hplus, if_pos hcdig, ← hd, parseDigits_toDec n 0]
    simp

/-- `parse::<u8>` of a byte-sized decimal rendering recovers the value. -/
theorem parseU8_toDec (n : Nat) (h : n < 256) : parseU8 (toDec n) = some n := by
  unfold parseU8
  rw [parseNat_toDec]
  simp [h]

/-- `parse::<u16>` of a 16-bit decimal rendering recovers the value. -/
theorem parseU16_toDec (n : Nat) (h : n < 65536) : parseU16 (toDec n) = some n := by
  unfold parseU16
  rw [parseNat_toDec]
  simp [h]

/-! ### Split / join round trip (claim C9, part 2) -/

/-- `splitChar` unfolded on a cons. -/
theorem splitChar_cons (c x : Char) (xs : List Char) :
    splitChar c (x :: xs) =
      if x = c then [] :: splitChar c xs
      else
        match splitChar c xs with
        | [] => [[x]]
        | p :: ps => (x :: p) :: ps := rfl

/-- `splitChar` always yields at least one part. -/
theorem splitChar_ne_nil (c : Char) : ∀ l : List Char, splitChar c l ≠ []
  | [] => by simp [splitChar]
  | x :: xs => by
    rw [splitChar_cons]
    by_cases hx : x = c
    · rw [if_pos hx]; simp
    · rw [if_neg hx]
      cases splitChar c xs <;> simp

/-- A separator-free string is a single part. -/
theorem splitChar_of_not_mem (c : Char) : ∀ l : List Char, c ∉ l → splitChar c l = [l]
  | [], _ => rfl
  | x :: xs, h => by
    have hx : ¬ x = c := fun hxc => h (hxc ▸ List.mem_cons_self x xs)
    rw [splitChar_cons, if_neg hx,
      splitChar_of_not_mem c xs (fun hm => h (List.mem_cons_of_mem _ hm))]

/-- Splitting after a separator-free prefix peels that prefix off. -/
theorem splitChar_append_cons (c : Char) : ∀ p m : List Char, c ∉ p →
    splitChar c (p ++ c :: m) = p :: splitChar c m
  | [], m, _ => by rw [List.nil_append, splitChar_cons, if_pos rfl]
  | x :: xs, m, h => by
    have hx : ¬ x = c := fun hxc => h (hxc ▸ List.mem_cons_self x xs)
    rw [List.cons_append, splitChar_cons, if_neg hx,
      splitChar_append_cons c xs m (fun hm => h (List.mem_cons_of_mem _ hm))]

/-- Splitting a separator-join of separator-free parts recovers the parts. -/
theorem splitChar_joinSep (c : Char) : ∀ parts : List (List Char), parts ≠ [] →
    (∀ p ∈ parts, c ∉ p) → splitChar c (joinSep c parts) = parts
  | [], h, _ => absurd rfl h
  | [p], _, hin => by
    show splitChar c p = [p]
    exact splitChar_of_not_mem c p (hin p (by simp))
  | p :: q :: rest, _, hin => by
    show splitChar c (p ++ c :: joinSep c (q :: rest)) = p :: q :: rest
    rw [splitChar_append_cons c p _ (hin p (by simp)),
      splitChar_joinSep c (q :: rest) (by simp)
        (fun r hr => hin r (List.mem_cons_of_mem _ hr))]

/-- `span` of an all-true prefix followed by a failing head. -/
theorem span_prefix (p : Char → Bool) (l : List Char) (y : Char) (m : List Char)
    (hl : ∀ x ∈ l, p x = true) (hy : p y = false) :
    (l ++ y :: m).span p = (l, y :: m) := by
  rw [List.span_eq_take_drop, List.takeWhile_append_of_pos hl,
    List.dropWhile_append_of_pos hl,
    List.takeWhile_cons_of_neg (by simp [hy]), List.dropWhile_cons_of_neg (by simp [hy])]
  simp

/-- `rsplit_once` at the last separator. -/
theorem rsplitOnce_eq (c : Char) (pre suf : List Char) (h : c ∉ suf) :
    rsplitOnce c (pre ++ c :: suf) = some (pre, suf) := by
  unfold rsplitOnce
  have hrev : (pre ++ c :: suf).reverse = suf.reverse ++ c :: pre.reverse := by
    simp
  rw [hrev, span_prefix (fun x => x ≠ c) suf.reverse c pre.reverse
    (fun x hx => by
      show decide (x ≠ c) = true
      rw [decide_eq_true_eq]
      intro hxc
      exact h (hxc ▸ List.mem_reverse.mp hx))
    (by simp)]
  simp

/-! ### ActorId text round trip (claim C9, part 3) -/

/-- The display form as a `joinSep` of its three parts. -/
theorem actor_toChars_parts (a : ActorId) :
    a.toChars = joinSep ':' ['v' :: toDec a.version, toDec a.node_id, toDec a.epoch] := by
  show 'v' :: toDec a.version ++ ':' :: toDec a.node_id ++ ':' :: toDec a.epoch = _
  show _ = ('v' :: toDec a.version) ++ ':' :: (toDec a.node_id ++ ':' :: toDec a.epoch)
  simp [List.append_assoc]

/-- No decimal rendering contains a separator character. -/
theorem sep_not_mem_toDec (n : Nat) (c : Char) (hc : 57 < c.toNat) : c ∉ toDec n := by
  intro hmem
  have := toDec_digits n c hmem
  omega

/-- `FromStr` inverts `Display` on well-formed actors. -/
theorem ActorId.fromChars_toChars (a : ActorId) (ha : a.WF) :
    ActorId.fromChars a.toChars = some a := by
  obtain ⟨h0, h1, h2, h3⟩ := ha
  have hnode : a.node_id < 65536 := by
    unfold ActorId.node_id
    omega
  have hcolon : (':' : Char).toNat = 58 := rfl
  have hsplit : splitChar ':' a.toChars =
      ['v' :: toDec a.version, toDec a.node_id, toDec a.epoch] := by
    rw [actor_toChars_parts]
    apply splitChar_joinSep
    · simp
    · intro p hp
      simp only [List.mem_cons, List.not_mem_nil, or_false] at hp
      rcases hp with rfl | rfl | rfl
      · intro hmem
        rcases List.mem_cons.mp hmem with hv | hv
        · revert hv; decide
        · exact sep_not_mem_toDec a.version ':' (by rw [hcolon]; omega) hv
      · exact sep_not_mem_toDec a.node_id ':' (by rw [hcolon]; omega)
      · exact sep_not_mem_toDec a.epoch ':' (by rw [hcolon]; omega)
  unfold ActorId.fromChars
  rw [hsplit]
  show (if 'v' = 'v' then
      (parseU8 (toDec a.version)).bind fun ver =>
        (parseU16 (toDec a.node_id)).bind fun nodeId =>
          (parseU8 (toDec a.epoch)).map fun epoch =>
            ActorId.new_with_version ver nodeId epoch
    else none) = some a
  rw [if_pos rfl, parseU8_toDec a.version h0, parseU16_toDec a.node_id hnode,
    parseU8_toDec a.epoch h3]
  show some (ActorId.new_with_version a.version a.node_id a.epoch) = some a
  unfold ActorId.new_with_version ActorId.version ActorId.node_id ActorId.epoch
  cases a with
  | mk b0 b1 b2 b3 =>
    simp only [ActorId.mk.injEq, Option.some.injEq]
    refine ⟨?_, ?_, ?_, ?_⟩ <;> simp only at h0 h1 h2 h3 ⊢ <;> omega

/-! ### VersionVector text round trip (claim C9, part 4) -/

/-- Characters below the digit range do not occur in decimal renderings. -/
theorem low_not_mem_toDec (n : Nat) (c : Char) (hc : c.toNat < 48) : c ∉ toDec n := by
  intro hmem
  have := toDec_digits n c hmem
  omega

/-- Every character of a rendered `actor:counter` entry is `v`, `:` or a
digit. -/
theorem entry_chars (a : ActorId) (cnt : Nat) :
    ∀ c ∈ a.toChars ++ ':' :: toDec cnt,
      c = 'v' ∨ c = ':' ∨ (48 ≤ c.toNat ∧ c.toNat ≤ 57) := by
  intro c hc
  rcases List.mem_append.mp hc with hm | hm
  · unfold ActorId.toChars at hm
    rcases List.mem_append.mp hm with hm | hm
    · rcases List.mem_append.mp hm with hm | hm
      · rcases List.mem_cons.mp hm with h | h
        · exact Or.inl h
        · exact Or.inr (Or.inr (toDec_digits _ _ h))
      · rcases List.mem_cons.mp hm with h | h
        · exact Or.inr (Or.inl h)
        · exact Or.inr (Or.inr (toDec_digits _ _ h))
    · rcases List.mem_cons.mp hm with h | h
      · exact Or.inr (Or.inl h)
      · exact Or.inr (Or.inr (toDec_digits _ _ h))
  · rcases List.mem_cons.mp hm with h | h
    · exact Or.inr (Or.inl h)
    · exact Or.inr (Or.inr (toDec_digits _ _ h))

/-- The comma separator occurs in no rendered `actor:counter` entry. -/
theorem comma_not_mem_entry (a : ActorId) (cnt : Nat) :
    ',' ∉ a.toChars ++ ':' :: toDec cnt := by
  intro hmem
  rcases entry_chars a cnt ',' hmem with h | h | h
  · revert h; decide
  · revert h; decide
  · revert h; decide

/-- A rendered entry is non-empty. -/
theorem entry_ne_nil (a : ActorId) (cnt : Nat) :
    a.toChars ++ ':' :: toDec cnt ≠ [] := by
  unfold ActorId.toChars
  simp

/-- A separator-join of parts is empty only for one empty part. -/
theorem joinSep_ne_nil (c : Char) : ∀ parts : List (List Char), parts ≠ [] →
    (∀ p ∈ parts, p ≠ []) → joinSep c parts ≠ []
  | [], h, _ => absurd rfl h
  | [p], _, hin => by
    show p ≠ []
    exact hin p (by simp)
  | p :: q :: rest, _, hin => by
    show p ++ c :: joinSep c (q :: rest) ≠ []
    simp

/-- One parsing step on a rendered entry appends the parsed pair, when its
key is fresh. -/
theorem fromCharsStep_entry (acc : List (ActorId × Nat)) (a : ActorId) (cnt : Nat)
    (ha : a.WF) (hnot : (acc.find? (fun q => q.1 = a)).isSome = false) :
    VersionVector.fromCharsStep acc (a.toChars ++ ':' :: toDec cnt) =
      some (acc ++ [(a, cnt)]) := by
  unfold VersionVector.fromCharsStep
  rw [rsplitOnce_eq ':' a.toChars (toDec cnt)
    (sep_not_mem_toDec cnt ':' (by show 57 < 58; omega))]
  show (ActorId.fromChars a.toChars).bind _ = _
  rw [ActorId.fromChars_toChars a ha]
  show (parseNat (toDec cnt)).map _ = _
  rw [parseNat_toDec]
  show some (if (acc.find? (fun q => q.1 = a)).isSome then _ else acc ++ [(a, cnt)]) = _
  rw [if_neg (by rw [hnot]; exact Bool.false_ne_true)]

/-- Folding the parser over freshly-keyed rendered entries appends them all. -/
theorem fromChars_fold : ∀ ps : List (ActorId × Nat), ∀ acc : List (ActorId × Nat),
    (∀ p ∈ ps, p.1.WF) →
    ((acc.map (·.1)) ++ ps.map (·.1)).Nodup →
    List.foldlM VersionVector.fromCharsStep acc
      (ps.map (fun p => p.1.toChars ++ ':' :: toDec p.2)) = some (acc ++ ps)
  | [], acc => fun _ _ => by simp
  | p :: ps, acc => fun hWF hnd => by
    rw [List.map_cons, List.foldlM_cons]
    have hfresh : (acc.find? (fun q => q.1 = p.1)).isSome = false := by
      cases hf : acc.find? (fun q => q.1 = p.1) with
      | none => rfl
      | some q =>
        exfalso
        have hq := List.find?_some hf
        rw [decide_eq_true_eq] at hq
        have hqmem : q.1 ∈ acc.map (·.1) := List.mem_map_of_mem _ (List.mem_of_find?_eq_some hf)
        have hpmem : p.1 ∈ (p :: ps).map (·.1) := by simp
        have := (List.nodup_append.mp hnd).2.2
        exact this hqmem (hq ▸ hpmem)
    rw [fromCharsStep_entry acc p.1 p.2 (hWF p (by simp)) hfresh]
    show List.foldlM VersionVector.fromCharsStep (acc ++ [p])
      (ps.map (fun p => p.1.toChars ++ ':' :: toDec p.2)) = some (acc ++ p :: ps)
    have hnd' : (((acc ++ [p]).map (·.1)) ++ ps.map (·.1)).Nodup := by
      have : ((acc ++ [p]).map (·.1)) ++ ps.map (·.1) =
          (acc.map (·.1)) ++ (p :: ps).map (·.1) := by
        simp
      rw [this]
      exact hnd
    rw [fromChars_fold ps (acc ++ [p]) (fun q hq => hWF q (by simp [hq])) hnd']
    simp

/-- With distinct keys, a member pair is what `find?` returns for its key. -/
theorem find_of_mem_nodupkeys : ∀ l : List (ActorId × Nat),
    (l.map (·.1)).Nodup → ∀ a b, (a, b) ∈ l →
    l.find? (fun p => p.1 = a) = some (a, b)
  | [], _, a, b, hmem => by simp at hmem
  | q :: l, hnd, a, b, hmem => by
    by_cases hq : q.1 = a
    · have : q = (a, b) := by
        rcases List.mem_cons.mp hmem with h | h
        · exact h.symm
        · exfalso
          have : a ∈ l.map (·.1) := by
            exact List.mem_map.mpr ⟨(a, b), h, rfl⟩
          rw [List.map_cons, List.nodup_cons] at hnd
          exact hnd.1 (hq ▸ this)
      rw [List.find?_cons_of_pos _ (by simpa using hq), this]
    · have hmem' : (a, b) ∈ l := by
        rcases List.mem_cons.mp hmem with h | h
        · exact absurd (by rw [← h]) hq
        · exact h
      rw [List.find?_cons_of_neg _ (by simpa using hq)]
      exact find_of_mem_nodupkeys l (List.nodup_cons.mp
        (by rw [List.map_cons] at hnd; exact hnd)).2 a b hmem'

/-- Map equality (Rust `HashMap` `==`) holds along any permutation with
distinct keys. -/
theorem mapEq_of_perm (v w : VersionVector) (hperm : List.Perm v.entries w.entries)
    (hv : (v.entries.map (·.1)).Nodup) :
    VersionVector.mapEq v w = true := by
  have hw : (w.entries.map (·.1)).Nodup :=
    ((hperm.map (·.1)).nodup_iff).mp hv
  unfold VersionVector.mapEq
  rw [Bool.and_eq_true, List.all_eq_true, List.all_eq_true]
  constructor
  · intro p hp
    rw [decide_eq_true_eq]
    unfold VersionVector.find
    rw [find_of_mem_nodupkeys w.entries hw p.1 p.2 (hperm.mem_iff.mp (by simpa using hp))]
    rfl
  · intro p hp
    rw [decide_eq_true_eq]
    unfold VersionVector.find
    rw [find_of_mem_nodupkeys v.entries hv p.1 p.2 (hperm.mem_iff.mpr (by simpa using hp))]
    rfl

/-- Claim C9: for every well-formed `VersionVector` `v` (distinct actors
with byte-sized fields, as every vector the source builds has),
`from_str(to_string(v))` returns `Some` of a vector map-equal (Rust `==`)
to `v`; and for every `ActorId` `a`, `from_bytes(a.bytes())` returns
`Ok(a)`. -/
theorem vv_actor_text_roundtrip (v : VersionVector) (a : ActorId) (hv : v.WF) :
    (∃ w, VersionVector.fromChars (VersionVector.toChars v) = some w ∧
      VersionVector.mapEq w v = true ∧ VersionVector.mapEq v w = true) ∧
    ActorId.from_bytes a.bytes = .ok a := by
  refine ⟨?_, rfl⟩
  obtain ⟨hnd, hWF⟩ := hv
  by_cases hemp : v.entries.isEmpty
  · have hnil : v.entries = [] := by
      cases hval : v.entries with
      | nil => rfl
      | cons x xs => rw [hval] at hemp; simp at hemp
    refine ⟨.new, ?_, ?_, ?_⟩
    · have hchars : VersionVector.toChars v = [] := by
        unfold VersionVector.toChars
        rw [if_pos hemp]
      rw [hchars]
      rfl
    · unfold VersionVector.mapEq
      rw [hnil]
      rfl
    · unfold VersionVector.mapEq
      rw [hnil]
      rfl
  · set sorted := v.entries.insertionSort (fun p q => p.1.leb q.1) with hsorted
    have hperm : List.Perm sorted v.entries := List.perm_insertionSort _ _
    have hsortnd : (sorted.map (·.1)).Nodup := ((hperm.map (·.1)).nodup_iff).mpr hnd
    have hsortWF : ∀ p ∈ sorted, p.1.WF := fun p hp => hWF p (hperm.mem_iff.mp hp)
    have hsortne : sorted ≠ [] := by
      intro hnil
      have hventries : v.entries = [] := ((hnil ▸ hperm).symm).eq_nil
      rw [hventries] at hemp
      simp at hemp
    have htoChars : VersionVector.toChars v =
        joinSep ',' (sorted.map (fun p => p.1.toChars ++ ':' :: toDec p.2)) := by
      unfold VersionVector.toChars
      rw [if_neg hemp]
    have hpartsne : sorted.map (fun p => p.1.toChars ++ ':' :: toDec p.2) ≠ [] := by
      intro hnil
      exact hsortne (List.map_eq_nil_iff.mp hnil)
    have hjoinne : joinSep ',' (sorted.map (fun p => p.1.toChars ++ ':' :: toDec p.2)) ≠ [] := by
      apply joinSep_ne_nil _ _ hpartsne
      intro p hp
      obtain ⟨q, -, rfl⟩ := List.mem_map.mp hp
      exact entry_ne_nil q.1 q.2
    have hsplit : splitChar ','
        (joinSep ',' (sorted.map (fun p => p.1.toChars ++ ':' :: toDec p.2))) =
        sorted.map (fun p => p.1.toChars ++ ':' :: toDec p.2) := by
      apply splitChar_joinSep _ _ hpartsne
      intro p hp
      obtain ⟨q, -, rfl⟩ := List.mem_map.mp hp
      exact comma_not_mem_entry q.1 q.2
    refine ⟨⟨sorted⟩, ?_, ?_, ?_⟩
    · unfold VersionVector.fromChars
      rw [htoChars, if_neg (fun hj => hjoinne (List.isEmpty_eq_true.mp hj)), hsplit,
        fromChars_fold sorted [] hsortWF (by simpa using hsortnd)]
      rfl
    · exact mapEq_of_perm ⟨sorted⟩ v hperm hsortnd
    · exact mapEq_of_perm v ⟨sorted⟩ hperm.symm hnd

/-- Claim C9 (witness): the two-actor vector `{v0:2:0: 2, v0:1:0: 1}`
renders and re-parses to a map-equal vector, and `actorA` survives its
byte round trip. -/
theorem vv_actor_text_roundtrip_witness :
    VersionVector.WF ⟨[(actorB, 2), (actorA, 1)]⟩ ∧
    ((∃ w, VersionVector.fromChars
        (VersionVector.toChars ⟨[(actorB, 2), (actorA, 1)]⟩) = some w ∧
      VersionVector.mapEq w ⟨[(actorB, 2), (actorA, 1)]⟩ = true ∧
      VersionVector.mapEq ⟨[(actorB, 2), (actorA, 1)]⟩ w = true) ∧
    ActorId.from_bytes actorA.bytes = .ok actorA) :=
  ⟨by decide, vv_actor_text_roundtrip ⟨[(actorB, 2), (actorA, 1)]⟩ actorA (by decide)⟩

end Bigsets
